import Mathlib

/-!
Verification of the adversarial-search Pacman repository
(`minimax.py`, `hminimax0.py`, `hminimax1.py`).

The game-state provider is external to the repository; per the spec it
exposes an opaque snapshot with positions, a food grid, terminal flags,
a score and per-side successor enumeration.  We embed a snapshot as a
finitely-branching tree carrying exactly those observations, and embed
each search engine as a function over that tree.  Numeric values from
the Python code are rationals extended with the two float infinities.
-/

set_option maxHeartbeats 1000000

/-- Numeric values of the search: a rational, or one of the two Python
float infinities used as sentinels. -/
inductive Val where
  | bot : Val
  | fin : ℚ → Val
  | top : Val
deriving DecidableEq, Repr

/-- Python `a < b` on such values. -/
def vlt : Val → Val → Bool
  | Val.bot, Val.bot => false
  | Val.bot, _ => true
  | Val.fin _, Val.bot => false
  | Val.fin a, Val.fin b => decide (a < b)
  | Val.fin _, Val.top => true
  | Val.top, _ => false

/-- Python `a <= b` on such values. -/
def vle : Val → Val → Bool
  | Val.bot, _ => true
  | Val.fin _, Val.bot => false
  | Val.fin a, Val.fin b => decide (a ≤ b)
  | Val.fin _, Val.top => true
  | Val.top, Val.top => true
  | Val.top, _ => false

/-- Python `max(a, b)`: returns `a` when the two are equal. -/
def vmax (a b : Val) : Val := if vlt a b then b else a

/-- Python `min(a, b)`: returns `a` when the two are equal. -/
def vmin (a b : Val) : Val := if vlt b a then b else a

/-- The linearly ordered set of extended rationals; `Val` maps into it
order-faithfully, which lets the order reasoning below reuse the
library lemmas. -/
abbrev W := WithBot (WithTop ℚ)

def toW : Val → W
  | Val.bot => ⊥
  | Val.fin q => ((q : WithTop ℚ) : W)
  | Val.top => ⊤

/-!
A game snapshot, embedded as a tree: the observations the engines
read from `pacman.GameState`, plus the successor enumerations for each
side (each successor paired with the move producing it).  The successor
lists live in a mutually defined list type so that recursion over the
tree stays structural and kernel-computable.
-/

mutual

inductive GameState where
  | mk
      (pacPos : Int × Int)
      (food : List (List Bool))
      (ghostPos : Int × Int)
      (ghostDir : String)
      (score : ℚ)
      (win : Bool)
      (lose : Bool)
      (legalActions : List String)
      (pacSucc : SuccList)
      (ghostSucc : SuccList) : GameState

inductive SuccList where
  | nil : SuccList
  | cons (state : GameState) (move : String) (rest : SuccList) : SuccList

end

/-- View a successor enumeration as the list of (state, move) pairs the
Python generator yields. -/
def SuccList.toList : SuccList → List (GameState × String)
  | SuccList.nil => []
  | SuccList.cons c a rest => (c, a) :: rest.toList

/-- Build a successor enumeration from a list literal. -/
def SuccList.ofList : List (GameState × String) → SuccList
  | [] => SuccList.nil
  | (c, a) :: rest => SuccList.cons c a (SuccList.ofList rest)

def GameState.pacPos : GameState → Int × Int
  | GameState.mk p _ _ _ _ _ _ _ _ _ => p

def GameState.food : GameState → List (List Bool)
  | GameState.mk _ f _ _ _ _ _ _ _ _ => f

def GameState.ghostPos : GameState → Int × Int
  | GameState.mk _ _ g _ _ _ _ _ _ _ => g

def GameState.ghostDir : GameState → String
  | GameState.mk _ _ _ d _ _ _ _ _ _ => d

def GameState.score : GameState → ℚ
  | GameState.mk _ _ _ _ s _ _ _ _ _ => s

def GameState.win : GameState → Bool
  | GameState.mk _ _ _ _ _ w _ _ _ _ => w

def GameState.lose : GameState → Bool
  | GameState.mk _ _ _ _ _ _ l _ _ _ => l

def GameState.legalActions : GameState → List String
  | GameState.mk _ _ _ _ _ _ _ a _ _ => a

/-- `state.generatePacmanSuccessors()`. -/
def GameState.pacSucc : GameState → List (GameState × String)
  | GameState.mk _ _ _ _ _ _ _ _ ps _ => ps.toList

/-- `state.generateGhostSuccessors(1)`. -/
def GameState.ghostSucc : GameState → List (GameState × String)
  | GameState.mk _ _ _ _ _ _ _ _ _ gs => gs.toList

/-- A state key, as produced by `key` in `minimax.py` and `hminimax1.py`. -/
abbrev StateKey := (Int × Int) × List (List Bool) × (Int × Int) × String

/-- The visited table: a Python dict from state key to score, embedded
as an association list with update-in-place insertion. -/
abbrev Visited := List (StateKey × ℚ)

def lookupV : Visited → StateKey → Option ℚ
  | [], _ => none
  | (k, v) :: rest, k0 => if k = k0 then some v else lookupV rest k0

def insertV : Visited → StateKey → ℚ → Visited
  | [], k0, v0 => [(k0, v0)]
  | (k, v) :: rest, k0, v0 =>
      if k = k0 then (k, v0) :: rest else (k, v) :: insertV rest k0 v0

/-- `manhattanDistance` from `pacman_module.util` (external helper). -/
def manhattanDistance (p q : Int × Int) : Int :=
  |p.1 - q.1| + |p.2 - q.2|

mutual

/-- Size of a snapshot tree, used as recursion fuel for the engines. -/
def GameState.gsize : GameState → Nat
  | GameState.mk _ _ _ _ _ _ _ _ ps gs => SuccList.gsize ps + SuccList.gsize gs + 1

/-- Size of a successor enumeration. -/
def SuccList.gsize : SuccList → Nat
  | SuccList.nil => 0
  | SuccList.cons c _ rest => GameState.gsize c + SuccList.gsize rest + 1

end

/-- Search events recorded alongside a run: `enter` marks a recursive
expansion of a successor (with its key, its score and the table entry
stored for that key at that moment); `evalSt` marks a base-case
evaluation of a snapshot. -/
inductive Ev where
  | enter (k : StateKey) (score : ℚ) (stored : Option ℚ) : Ev
  | evalSt (s : GameState) : Ev

/-- Result of one recursive search call: the `[value, action]` pair the
Python function returns, the visited table after the call (the Python
dict is mutated in place), and the event trace of the call. -/
structure Res where
  value : Val
  move : Option String
  visited : Visited
  trace : List Ev

namespace Minimax

/-- `key` from `minimax.py`. -/
def key (s : GameState) : StateKey := (s.pacPos, s.food, s.ghostPos, s.ghostDir)

/-- `terminal` from `minimax.py`. -/
def terminal (s : GameState) : Bool := s.lose || s.win

/-- `utility_function` from `minimax.py`: returns `state.isWin()`, a
Python boolean that compares as 1 (win) or 0 (lose). -/
def utility_function (s : GameState) : Val := Val.fin (if s.win then 1 else 0)

/-- The admissibility test of the visited table: the Python condition
`next_key not in visited.keys() or better_state`. -/
def admissible (stored : Option ℚ) (sc : ℚ) : Bool :=
  match stored with
  | none => true
  | some v => decide (v < sc)

/-- The maximising-player loop of `minimax_aux` (lines 81-104): visited
guard, recursion, strict-improvement update with the `+inf` guard, beta
cutoff early return, alpha narrowing. -/
def pacLoop (next : GameState → Val → Val → Visited → Res) :
    List (GameState × String) → Val → Val → Val → Option String → Visited → Res
  | [], _, _, maxv, best, vis => ⟨maxv, best, vis, []⟩
  | (c, a) :: rest, alpha, beta, maxv, best, vis =>
      let k := key c
      let sc := c.score
      let stored := lookupV vis k
      if admissible stored sc then
        let r := next c alpha beta (insertV vis k sc)
        let upd := vlt maxv r.value && !(r.value == Val.top)
        let maxv1 := if upd then r.value else maxv
        let best1 := if upd then some a else best
        if vle beta maxv1 then
          ⟨maxv1, best1, r.visited, Ev.enter k sc stored :: r.trace⟩
        else
          let rr := pacLoop next rest (vmax alpha maxv1) beta maxv1 best1 r.visited
          ⟨rr.value, rr.move, rr.visited, Ev.enter k sc stored :: (r.trace ++ rr.trace)⟩
      else pacLoop next rest alpha beta maxv best vis

/-- The minimising-player loop of `minimax_aux` (lines 109-130): the
local `best_action` is initialised to `None` and never assigned. -/
def ghostLoop (next : GameState → Val → Val → Visited → Res) :
    List (GameState × String) → Val → Val → Val → Option String → Visited → Res
  | [], _, _, minv, best, vis => ⟨minv, best, vis, []⟩
  | (c, _) :: rest, alpha, beta, minv, best, vis =>
      let k := key c
      let sc := c.score
      let stored := lookupV vis k
      if admissible stored sc then
        let r := next c alpha beta (insertV vis k sc)
        let upd := vlt r.value minv && !(r.value == Val.bot)
        let minv1 := if upd then r.value else minv
        if vle minv1 alpha then
          ⟨minv1, best, r.visited, Ev.enter k sc stored :: r.trace⟩
        else
          let rr := ghostLoop next rest alpha (vmin beta minv1) minv1 best r.visited
          ⟨rr.value, rr.move, rr.visited, Ev.enter k sc stored :: (r.trace ++ rr.trace)⟩
      else ghostLoop next rest alpha beta minv best vis

/-- Fuelled form of `minimax_aux`; the fuel only bounds the recursion
depth and is set to a sufficient value by the wrapper below. -/
def minimaxAuxF : Nat → GameState → Val → Val → Bool → Visited → Res
  | 0, _, _, _, _, vis => ⟨Val.bot, none, vis, []⟩
  | f + 1, s, alpha, beta, isPacman, vis =>
      if terminal s then ⟨utility_function s, none, vis, [Ev.evalSt s]⟩
      else if isPacman then
        pacLoop (fun c a b v => minimaxAuxF f c a b false v)
          s.pacSucc alpha beta Val.bot none vis
      else
        ghostLoop (fun c a b v => minimaxAuxF f c a b true v)
          s.ghostSucc alpha beta Val.top none vis

/-- `minimax_aux` from `minimax.py`. -/
def minimax_aux (s : GameState) (alpha beta : Val) (isPacman : Bool)
    (vis : Visited) : Res :=
  minimaxAuxF s.gsize s alpha beta isPacman vis

/-- `minimax` from `minimax.py`. -/
def minimax (s : GameState) : Option String :=
  (minimax_aux s Val.bot Val.top true []).move

/-- Exhaustive, non-pruned comparator, modelled from the spec words:
the same bounded tree, cutoff (terminal) policy, visited-table
admissibility rule and sentinel guards as `minimax_aux`, with the
alpha-beta bounds and their early returns removed. -/
def refPacLoop (next : GameState → Visited → Res) :
    List (GameState × String) → Val → Option String → Visited → Res
  | [], maxv, best, vis => ⟨maxv, best, vis, []⟩
  | (c, a) :: rest, maxv, best, vis =>
      let k := key c
      let sc := c.score
      let stored := lookupV vis k
      if admissible stored sc then
        let r := next c (insertV vis k sc)
        let upd := vlt maxv r.value && !(r.value == Val.top)
        refPacLoop next rest (if upd then r.value else maxv)
          (if upd then some a else best) r.visited
      else refPacLoop next rest maxv best vis

/-- Minimising loop of the non-pruned comparator. -/
def refGhostLoop (next : GameState → Visited → Res) :
    List (GameState × String) → Val → Option String → Visited → Res
  | [], minv, best, vis => ⟨minv, best, vis, []⟩
  | (c, _) :: rest, minv, best, vis =>
      let k := key c
      let sc := c.score
      let stored := lookupV vis k
      if admissible stored sc then
        let r := next c (insertV vis k sc)
        let upd := vlt r.value minv && !(r.value == Val.bot)
        refGhostLoop next rest (if upd then r.value else minv) best r.visited
      else refGhostLoop next rest minv best vis

/-- Fuelled form of the non-pruned comparator. -/
def minimaxRefAuxF : Nat → GameState → Bool → Visited → Res
  | 0, _, _, vis => ⟨Val.bot, none, vis, []⟩
  | f + 1, s, isPacman, vis =>
      if terminal s then ⟨utility_function s, none, vis, [Ev.evalSt s]⟩
      else if isPacman then
        refPacLoop (fun c v => minimaxRefAuxF f c false v) s.pacSucc Val.bot none vis
      else
        refGhostLoop (fun c v => minimaxRefAuxF f c true v) s.ghostSucc Val.top none vis

/-- Exhaustive non-pruned minimax over the same bounded tree. -/
def minimaxRefAux (s : GameState) (isPacman : Bool) (vis : Visited) : Res :=
  minimaxRefAuxF s.gsize s isPacman vis


/-- `PacmanAgent.get_action` from `minimax.py`: the agent state is the
`self.moves` buffer; a buffered entry is a Python value that is either a
move string or Python `None` (modelled by `Option String`).  Returns the
Python return value together with the buffer after the call. -/
def get_action (moves : List (Option String)) (s : GameState) :
    Option String × List (Option String) :=
  let moves1 := if moves.isEmpty then moves ++ [minimax s] else moves
  match moves1.getLast? with
  | some m => (m, moves1.dropLast)
  | none => (some "Stop", moves1)

end Minimax

/-- Extract the rational carried by a finite value (the engines only
apply this where the value is known finite). -/
def vToRat : Val → ℚ
  | Val.fin q => q
  | _ => 0

namespace HMinimax0

/-- A member of `self.previousKeyStates`: (pacman position, food grid). -/
abbrev RevisitKey := (Int × Int) × List (List Bool)

/-- Inner food loop of `PacmanAgent.eval_function` in `hminimax0.py`:
one grid row, accumulating (food count, min distance, max distance),
with the float infinities as initial sentinels. -/
def foodRowScan (pac : Int × Int) (i : Int) :
    List Bool → Int → Nat × Val × Val → Nat × Val × Val
  | [], _, acc => acc
  | e :: restRow, j, (n, mn, mx) =>
      if e then
        let dist : ℚ := (manhattanDistance (i, j) pac : ℚ)
        let mn1 := if vlt (Val.fin dist) mn then Val.fin dist else mn
        let mx1 := if vlt mx (Val.fin dist) then Val.fin dist else mx
        foodRowScan pac i restRow (j + 1) (n + 1, mn1, mx1)
      else foodRowScan pac i restRow (j + 1) (n, mn, mx)

/-- Outer food loop of `PacmanAgent.eval_function` in `hminimax0.py`. -/
def foodScan (pac : Int × Int) :
    List (List Bool) → Int → Nat × Val × Val → Nat × Val × Val
  | [], _, acc => acc
  | row :: rest, i, acc => foodScan pac rest (i + 1) (foodRowScan pac i row 0 acc)

/-- `PacmanAgent.eval_function` from `hminimax0.py`.  The agent fields
`self.previousKeyStates` and `self.current_score` are passed as the
`prevKeys` and `currentScore` parameters. -/
def eval_function (prevKeys : List RevisitKey) (currentScore : ℚ)
    (s : GameState) : ℚ :=
  let pacGhostDist : ℚ := (manhattanDistance s.pacPos s.ghostPos : ℚ)
  let scan := foodScan s.pacPos s.food 0 (0, Val.top, Val.bot)
  let numFood := scan.1
  let minD := if numFood = 0 then Val.fin 0 else scan.2.1
  let maxD := if numFood = 0 then Val.fin 0 else scan.2.2
  let penalty : ℚ := if (s.pacPos, s.food) ∈ prevKeys then 400 else 0
  s.score - currentScore - penalty + 1 / 2 * pacGhostDist - vToRat minD
    - 2 * (numFood : ℚ) + 1 / 2 * vToRat maxD
    + 1 / 2 * (s.legalActions.length : ℚ)

/-- `PacmanAgent.cutoff` from `hminimax0.py`. -/
def cutoff (s : GameState) (depth : Nat) (is_pacman : Bool) : Bool :=
  if depth > 0 then
    if s.win || s.lose then true
    else
      let pacGhostDist := manhattanDistance s.pacPos s.ghostPos
      if (if is_pacman then decide (pacGhostDist > 2)
          else decide (pacGhostDist ≥ 2)) then true
      else
        let xDiff := s.ghostPos.1 - s.pacPos.1
        let yDiff := s.ghostPos.2 - s.pacPos.2
        let horizontalDir := if xDiff > 0 then "East"
          else if xDiff < 0 then "West" else ""
        let verticalDir := if yDiff > 0 then "North"
          else if yDiff < 0 then "South" else ""
        if verticalDir = s.ghostDir ∨ horizontalDir = s.ghostDir then true
        else false
  else false

/-- Maximising-player loop of `PacmanAgent.hminimax_aux` in
`hminimax0.py` (no visited table in this engine). -/
def pacLoop (next : GameState → Val → Val → Val × Option String) :
    List (GameState × String) → Val → Val → Val → Option String →
    Val × Option String
  | [], _, _, maxv, best => (maxv, best)
  | (c, a) :: rest, alpha, beta, maxv, best =>
      let v := (next c alpha beta).1
      let upd := vlt maxv v && !(v == Val.top)
      let maxv1 := if upd then v else maxv
      let best1 := if upd then some a else best
      if vle beta maxv1 then (maxv1, best1)
      else pacLoop next rest (vmax alpha maxv1) beta maxv1 best1

/-- Minimising-player loop of `PacmanAgent.hminimax_aux` in
`hminimax0.py`; its local `best_action` is never assigned. -/
def ghostLoop (next : GameState → Val → Val → Val × Option String) :
    List (GameState × String) → Val → Val → Val → Option String →
    Val × Option String
  | [], _, _, minv, best => (minv, best)
  | (c, _) :: rest, alpha, beta, minv, best =>
      let v := (next c alpha beta).1
      let upd := vlt v minv && !(v == Val.bot)
      let minv1 := if upd then v else minv
      if vle minv1 alpha then (minv1, best)
      else ghostLoop next rest alpha (vmin beta minv1) minv1 best

/-- Fuelled form of `PacmanAgent.hminimax_aux` from `hminimax0.py`. -/
def hminimaxAuxF (pk : List RevisitKey) (cs : ℚ) :
    Nat → GameState → Val → Val → Bool → Nat → Val × Option String
  | 0, _, _, _, _, _ => (Val.bot, none)
  | f + 1, s, alpha, beta, is_pacman, depth =>
      if cutoff s depth is_pacman then (Val.fin (eval_function pk cs s), none)
      else if is_pacman then
        pacLoop (fun c a b => hminimaxAuxF pk cs f c a b false (depth + 1))
          s.pacSucc alpha beta Val.bot none
      else
        ghostLoop (fun c a b => hminimaxAuxF pk cs f c a b true (depth + 1))
          s.ghostSucc alpha beta Val.top none

/-- `PacmanAgent.hminimax_aux` from `hminimax0.py`. -/
def hminimax_aux (pk : List RevisitKey) (cs : ℚ) (s : GameState)
    (alpha beta : Val) (is_pacman : Bool) (depth : Nat) : Val × Option String :=
  hminimaxAuxF pk cs s.gsize s alpha beta is_pacman depth

/-- `PacmanAgent.hminimax` from `hminimax0.py`. -/
def hminimax (pk : List RevisitKey) (cs : ℚ) (s : GameState) : Option String :=
  (hminimax_aux pk cs s Val.bot Val.top true 0).2

/-- Maximising loop of the exhaustive, non-pruned comparator for this
engine, modelled from the spec words: same cutoff policy, same
evaluation, same sentinel guards, alpha-beta bounds and early returns
removed. -/
def refPacLoop (next : GameState → Val × Option String) :
    List (GameState × String) → Val → Option String → Val × Option String
  | [], maxv, best => (maxv, best)
  | (c, a) :: rest, maxv, best =>
      let v := (next c).1
      let upd := vlt maxv v && !(v == Val.top)
      refPacLoop next rest (if upd then v else maxv)
        (if upd then some a else best)

/-- Minimising loop of the non-pruned comparator for this engine. -/
def refGhostLoop (next : GameState → Val × Option String) :
    List (GameState × String) → Val → Option String → Val × Option String
  | [], minv, best => (minv, best)
  | (c, _) :: rest, minv, best =>
      let v := (next c).1
      let upd := vlt v minv && !(v == Val.bot)
      refGhostLoop next rest (if upd then v else minv) best

/-- Fuelled form of the non-pruned comparator for this engine. -/
def hminimaxRefAuxF (pk : List RevisitKey) (cs : ℚ) :
    Nat → GameState → Bool → Nat → Val × Option String
  | 0, _, _, _ => (Val.bot, none)
  | f + 1, s, is_pacman, depth =>
      if cutoff s depth is_pacman then (Val.fin (eval_function pk cs s), none)
      else if is_pacman then
        refPacLoop (fun c => hminimaxRefAuxF pk cs f c false (depth + 1))
          s.pacSucc Val.bot none
      else
        refGhostLoop (fun c => hminimaxRefAuxF pk cs f c true (depth + 1))
          s.ghostSucc Val.top none

/-- Exhaustive non-pruned minimax over the same bounded tree, with the
same cutoff policy and evaluation as `hminimax_aux`. -/
def hminimaxRefAux (pk : List RevisitKey) (cs : ℚ) (s : GameState)
    (is_pacman : Bool) (depth : Nat) : Val × Option String :=
  hminimaxRefAuxF pk cs s.gsize s is_pacman depth

end HMinimax0

namespace HMinimax1

/-- `key` from `hminimax1.py`. -/
def key (s : GameState) : StateKey := (s.pacPos, s.food, s.ghostPos, s.ghostDir)

/-- Inner food loop of `eval_function` in `hminimax1.py`: one grid row,
accumulating (food count, min distance), float infinity as sentinel. -/
def foodRowScan (pac : Int × Int) (i : Int) :
    List Bool → Int → Nat × Val → Nat × Val
  | [], _, acc => acc
  | e :: restRow, j, (n, mn) =>
      if e then
        let dist : ℚ := (manhattanDistance (i, j) pac : ℚ)
        let mn1 := if vlt (Val.fin dist) mn then Val.fin dist else mn
        foodRowScan pac i restRow (j + 1) (n + 1, mn1)
      else foodRowScan pac i restRow (j + 1) (n, mn)

/-- Outer food loop of `eval_function` in `hminimax1.py`. -/
def foodScan (pac : Int × Int) :
    List (List Bool) → Int → Nat × Val → Nat × Val
  | [], _, acc => acc
  | row :: rest, i, acc => foodScan pac rest (i + 1) (foodRowScan pac i row 0 acc)

/-- `eval_function` from `hminimax1.py`. -/
def eval_function (s : GameState) : ℚ :=
  let scan := foodScan s.pacPos s.food 0 (0, Val.top)
  let numFood := scan.1
  let minD := if numFood = 0 then Val.fin 0 else scan.2
  s.score - 4 * vToRat minD - 10 * (numFood : ℚ)

/-- Inner loop of the food-distance sums in `cutoff` of `hminimax1.py`. -/
def foodSumRow (pac ghost : Int × Int) (i : Int) :
    List Bool → Int → Int × Int → Int × Int
  | [], _, acc => acc
  | e :: restRow, j, (ps, gs) =>
      if e then
        foodSumRow pac ghost i restRow (j + 1)
          (ps + manhattanDistance (i, j) pac, gs + manhattanDistance (i, j) ghost)
      else foodSumRow pac ghost i restRow (j + 1) (ps, gs)

/-- Outer loop of the food-distance sums in `cutoff` of `hminimax1.py`. -/
def foodSum (pac ghost : Int × Int) :
    List (List Bool) → Int → Int × Int → Int × Int
  | [], _, acc => acc
  | row :: rest, i, acc => foodSum pac ghost rest (i + 1) (foodSumRow pac ghost i row 0 acc)

/-- `cutoff` from `hminimax1.py`. -/
def cutoff (s : GameState) (depth : Nat) (is_pacman : Bool) : Bool :=
  if depth > 0 then
    if s.win || s.lose then true
    else
      let pacGhostDist := manhattanDistance s.pacPos s.ghostPos
      if (if is_pacman then decide (pacGhostDist > 2)
          else decide (pacGhostDist ≥ 2)) then true
      else
        let sums := foodSum s.pacPos s.ghostPos s.food 0 (0, 0)
        if sums.1 ≤ sums.2 ∧ is_pacman = true then true else false
  else false

/-- Maximising-player loop of `hminimax_aux` in `hminimax1.py` (visited
guard and update, recursion, strict-improvement update with `+inf`
guard, beta cutoff early return, alpha narrowing). -/
def pacLoop (next : GameState → Val → Val → Visited → Res) :
    List (GameState × String) → Val → Val → Val → Option String → Visited → Res
  | [], _, _, maxv, best, vis => ⟨maxv, best, vis, []⟩
  | (c, a) :: rest, alpha, beta, maxv, best, vis =>
      let k := key c
      let sc := c.score
      let stored := lookupV vis k
      if Minimax.admissible stored sc then
        let r := next c alpha beta (insertV vis k sc)
        let upd := vlt maxv r.value && !(r.value == Val.top)
        let maxv1 := if upd then r.value else maxv
        let best1 := if upd then some a else best
        if vle beta maxv1 then
          ⟨maxv1, best1, r.visited, Ev.enter k sc stored :: r.trace⟩
        else
          let rr := pacLoop next rest (vmax alpha maxv1) beta maxv1 best1 r.visited
          ⟨rr.value, rr.move, rr.visited, Ev.enter k sc stored :: (r.trace ++ rr.trace)⟩
      else pacLoop next rest alpha beta maxv best vis

/-- Minimising-player loop of `hminimax_aux` in `hminimax1.py`; its
local `best_action` is never assigned. -/
def ghostLoop (next : GameState → Val → Val → Visited → Res) :
    List (GameState × String) → Val → Val → Val → Option String → Visited → Res
  | [], _, _, minv, best, vis => ⟨minv, best, vis, []⟩
  | (c, _) :: rest, alpha, beta, minv, best, vis =>
      let k := key c
      let sc := c.score
      let stored := lookupV vis k
      if Minimax.admissible stored sc then
        let r := next c alpha beta (insertV vis k sc)
        let upd := vlt r.value minv && !(r.value == Val.bot)
        let minv1 := if upd then r.value else minv
        if vle minv1 alpha then
          ⟨minv1, best, r.visited, Ev.enter k sc stored :: r.trace⟩
        else
          let rr := ghostLoop next rest alpha (vmin beta minv1) minv1 best r.visited
          ⟨rr.value, rr.move, rr.visited, Ev.enter k sc stored :: (r.trace ++ rr.trace)⟩
      else ghostLoop next rest alpha beta minv best vis

/-- Fuelled form of `hminimax_aux` from `hminimax1.py`. -/
def hminimaxAuxF : Nat → GameState → Val → Val → Bool → Visited → Nat → Res
  | 0, _, _, _, _, vis, _ => ⟨Val.bot, none, vis, []⟩
  | f + 1, s, alpha, beta, is_pacman, vis, depth =>
      if cutoff s depth is_pacman then
        ⟨Val.fin (eval_function s), none, vis, [Ev.evalSt s]⟩
      else if is_pacman then
        pacLoop (fun c a b v => hminimaxAuxF f c a b false v (depth + 1))
          s.pacSucc alpha beta Val.bot none vis
      else
        ghostLoop (fun c a b v => hminimaxAuxF f c a b true v (depth + 1))
          s.ghostSucc alpha beta Val.top none vis

/-- `hminimax_aux` from `hminimax1.py`. -/
def hminimax_aux (s : GameState) (alpha beta : Val) (is_pacman : Bool)
    (vis : Visited) (depth : Nat) : Res :=
  hminimaxAuxF s.gsize s alpha beta is_pacman vis depth

/-- `hminimax` from `hminimax1.py`. -/
def hminimax (s : GameState) : Option String :=
  (hminimax_aux s Val.bot Val.top true [] 0).move

/-- `PacmanAgent.get_action` from `hminimax1.py` (same buffer protocol
as the one in `minimax.py`). -/
def get_action (moves : List (Option String)) (s : GameState) :
    Option String × List (Option String) :=
  let moves1 := if moves.isEmpty then moves ++ [hminimax s] else moves
  match moves1.getLast? with
  | some m => (m, moves1.dropLast)
  | none => (some "Stop", moves1)

end HMinimax1

/-!
## Claim-side definitions

Definitions written from the wording of the specification, used to
state the claims: enumeration of the food cells of a grid, minimum
distance to a target, the approach directions of claim C4, per-event
predicates for the visited-table and evaluation claims, and the
concrete snapshots used by counterexamples and witnesses.
-/

/-- Food cells of one grid row, with their (row index, column index)
coordinates as the Python loops produce them. -/
def rowCells (i : Int) : List Bool → Int → List (Int × Int)
  | [], _ => []
  | e :: rest, j => (if e then [(i, j)] else []) ++ rowCells i rest (j + 1)

/-- Coordinates of all remaining food cells of a grid. -/
def foodCells : List (List Bool) → Int → List (Int × Int)
  | [], _ => []
  | row :: rest, i => rowCells i row 0 ++ foodCells rest (i + 1)

/-- Minimum Manhattan distance from `pac` to a cell of `cells`
(`Val.top` when there is none): the spec notion of distance to the
nearest remaining target. -/
def minFoodDistVal (cells : List (Int × Int)) (pac : Int × Int) : Val :=
  cells.foldr (fun c acc => vmin (Val.fin (manhattanDistance c pac : ℚ)) acc) Val.top

/-- Horizontal direction from the agent towards the adversary derived
from the position delta, as claim C4 spells it: East exactly when the
x-coordinate of the adversary exceeds that of the agent. -/
def deltaHorizDir (s : GameState) : String :=
  if s.ghostPos.1 - s.pacPos.1 > 0 then "East"
  else if s.ghostPos.1 - s.pacPos.1 < 0 then "West" else ""

/-- Vertical direction from the agent towards the adversary derived
from the position delta: North exactly when the y-coordinate of the
adversary exceeds that of the agent. -/
def deltaVertDir (s : GameState) : String :=
  if s.ghostPos.2 - s.pacPos.2 > 0 then "North"
  else if s.ghostPos.2 - s.pacPos.2 < 0 then "South" else ""

/-- The visited-table discipline claimed for each recursive expansion:
whenever an already-stored entry was found for the key of the expanded
successor, the stored score was strictly below the score of the
successor (so neither the expansion nor the overwrite happened with a
stored score greater than or equal to it). -/
def enterOk : Ev → Prop
  | Ev.enter _ sc stored => ∀ v, stored = some v → v < sc
  | Ev.evalSt _ => True

/-- An evaluation event only ever evaluates a terminal snapshot. -/
def evalTerminal : Ev → Prop
  | Ev.evalSt s => Minimax.terminal s = true
  | Ev.enter _ _ _ => True

/-- A childless snapshot with the given positions, score and terminal
flags (food grid empty, ghost facing North). -/
def leafState (pac ghost : Int × Int) (sc : ℚ) (w lo : Bool) : GameState :=
  GameState.mk pac [] ghost "North" sc w lo [] SuccList.nil SuccList.nil

/-- A non-terminal snapshot with the given positions, score and
successor enumerations. -/
def nodeState (pac ghost : Int × Int) (sc : ℚ)
    (ps gs : List (GameState × String)) : GameState :=
  GameState.mk pac [] ghost "North" sc false false []
    (SuccList.ofList ps) (SuccList.ofList gs)

/-!
The counterexample snapshot for claim C1.  Pruning interacts with the
shared visited table: the alpha cutoff inside the minimising node under
move a2 skips the ghost successor at key ((2,0), [], (7,9), North),
so under move a3 the winning pacman successor with that same key is
still admissible and the pruned search finds the win; the exhaustive
search visits that key first (with an equal score), later skips the
winning successor, and settles on move a1 with value 0.
-/

def stA : GameState := leafState (1, 0) (9, 9) 0 false true

def stB1 : GameState := leafState (2, 0) (8, 9) 0 false true

def stB2 : GameState := leafState (2, 0) (7, 9) 5 false true

def stB : GameState := nodeState (2, 0) (9, 9) 0 [] [(stB1, "g1"), (stB2, "g2")]

def stD : GameState := leafState (2, 0) (7, 9) 5 true false

def stC1 : GameState := nodeState (3, 0) (8, 9) 0 [(stD, "p1")] []

def stC : GameState := nodeState (3, 0) (9, 9) 0 [] [(stC1, "g1")]

def stR : GameState := nodeState (0, 0) (9, 9) 0 [(stA, "a1"), (stB, "a2"), (stC, "a3")] []

/-- A winning terminal snapshot that still has a pacman successor: used
to show that at depth 0 the cutoff policies do not stop the expansion
of a terminal root. -/
def stWinRoot : GameState :=
  GameState.mk (0, 0) [] (0, 2) "North" 7 true false []
    (SuccList.ofList [(leafState (0, 1) (0, 2) 7 true false, "East")]) SuccList.nil

/-- Two successors of `stE` share one state key (same position, food,
ghost position and direction) but the second carries a strictly higher
score, so the engines re-expand it and overwrite the table entry. -/
def stE1 : GameState := leafState (5, 0) (9, 9) 3 false true

def stE2 : GameState := leafState (5, 0) (9, 9) 7 false true

def stE : GameState := nodeState (4, 0) (9, 9) 0 [(stE1, "e1"), (stE2, "e2")] []

/-- Two successors of `stF` share the state key
((6,0), [], (9,9), North); with that key already stored at score 5, the
first (score 5) is skipped and the second (score 7) is re-expanded. -/
def stF1 : GameState := leafState (6, 0) (9, 9) 5 false true

def stF2 : GameState := leafState (6, 0) (9, 9) 7 false true

def stF : GameState := nodeState (5, 5) (9, 9) 0 [(stF1, "f1"), (stF2, "f2")] []

/-- Two terminal losing successors with distinct keys, symmetric
positions (equal ghost distance) and equal evaluations: a tie between
the first and the second enumerated move. -/
def stT1 : GameState := leafState (1, 0) (5, 5) 0 false true

def stT2 : GameState := leafState (0, 1) (5, 5) 0 false true

def stT : GameState := nodeState (0, 0) (5, 5) 0 [(stT1, "t1"), (stT2, "t2")] []

/-- The window relation of the pruning-correctness proof, between the
value `m` of the exhaustive search and the value `v` the alpha-beta
search returns for a window (`alpha`, `beta`): the two sentinels are
reproduced exactly, a value inside the window is exact, and a value
outside is bracketed between the true value and the violated bound. -/
def KM (alpha beta m v : W) : Prop :=
  (m = ⊤ → v = ⊤) ∧ (m = ⊥ → v = ⊥) ∧
  (alpha < m → m < beta → v = m) ∧
  (m ≤ alpha → m ≤ v ∧ v ≤ alpha) ∧
  (beta ≤ m → beta ≤ v ∧ v ≤ m)

/-!
## Theorems

Everything from here on is a lemma or a claim theorem about the
definitions above.
-/

theorem toW_fin_lt_top (q : ℚ) : ((q : WithTop ℚ) : W) < ⊤ :=
  lt_top_iff_ne_top.mpr (by simp)

theorem toW_inj {a b : Val} : toW a = toW b ↔ a = b := by
  constructor
  · intro h
    cases a <;> cases b <;> simp_all [toW]
  · intro h; rw [h]

theorem vlt_iff {a b : Val} : vlt a b = true ↔ toW a < toW b := by
  cases a <;> cases b <;>
    simp [vlt, toW, WithBot.bot_lt_coe, WithBot.coe_lt_coe, WithTop.coe_lt_top,
      WithTop.coe_lt_coe, toW_fin_lt_top, bot_lt_iff_ne_bot]

theorem vle_iff {a b : Val} : vle a b = true ↔ toW a ≤ toW b := by
  cases a <;> cases b <;>
    simp [vle, toW, WithBot.coe_le_coe, WithTop.coe_le_coe,
      (toW_fin_lt_top _).le, (toW_fin_lt_top _).not_le, bot_lt_iff_ne_bot]

theorem vlt_false_iff {a b : Val} : vlt a b = false ↔ toW b ≤ toW a := by
  rw [← not_lt, ← vlt_iff, Bool.not_eq_true, eq_comm]

theorem vle_false_iff {a b : Val} : vle a b = false ↔ toW b < toW a := by
  rw [← not_le, ← vle_iff, Bool.not_eq_true, eq_comm]

theorem toW_vmax (a b : Val) : toW (vmax a b) = max (toW a) (toW b) := by
  unfold vmax
  by_cases h : vlt a b = true
  · rw [if_pos h, max_eq_right (vlt_iff.mp h).le]
  · have := vlt_false_iff.mp (Bool.not_eq_true _ ▸ h)
    rw [if_neg h, max_eq_left this]

theorem toW_vmin (a b : Val) : toW (vmin a b) = min (toW a) (toW b) := by
  unfold vmin
  by_cases h : vlt b a = true
  · rw [if_pos h, min_eq_right (vlt_iff.mp h).le]
  · have := vlt_false_iff.mp (Bool.not_eq_true _ ▸ h)
    rw [if_neg h, min_eq_left this]

theorem toW_eq_top_iff {a : Val} : toW a = ⊤ ↔ a = Val.top := by
  cases a <;> simp [toW]

theorem toW_eq_bot_iff {a : Val} : toW a = ⊥ ↔ a = Val.bot := by
  cases a <;> simp [toW]

theorem beq_top_false_iff {a : Val} : (a == Val.top) = false ↔ toW a ≠ ⊤ := by
  cases a <;> simp [toW, toW_eq_top_iff]

theorem beq_bot_false_iff {a : Val} : (a == Val.bot) = false ↔ toW a ≠ ⊥ := by
  cases a <;> simp [toW, toW_eq_bot_iff]

theorem gameState_gsize_pos (s : GameState) : 1 ≤ s.gsize := by
  cases s with
  | mk p f g d sc w lo la ps gs => simp only [GameState.gsize]; omega

theorem gsize_lt_of_mem_succ {c : GameState} {a : String} :
    ∀ (l : SuccList), (c, a) ∈ l.toList → c.gsize < l.gsize
  | SuccList.nil, h => by simp [SuccList.toList] at h
  | SuccList.cons c0 a0 rest, h => by
      simp only [SuccList.toList, List.mem_cons, Prod.mk.injEq] at h
      rcases h with ⟨h1, _⟩ | h2
      · subst h1; simp only [SuccList.gsize]; omega
      · have := gsize_lt_of_mem_succ rest h2
        simp only [SuccList.gsize]; omega

theorem gsize_lt_of_mem_pacSucc {c : GameState} {a : String} {s : GameState}
    (h : (c, a) ∈ s.pacSucc) : c.gsize < s.gsize := by
  cases s with
  | mk p f g d sc w lo la ps gs =>
      have h1 : c.gsize < ps.gsize := gsize_lt_of_mem_succ ps h
      simp only [GameState.gsize]
      omega

theorem gsize_lt_of_mem_ghostSucc {c : GameState} {a : String} {s : GameState}
    (h : (c, a) ∈ s.ghostSucc) : c.gsize < s.gsize := by
  cases s with
  | mk p f g d sc w lo la ps gs =>
      have h1 : c.gsize < gs.gsize := gsize_lt_of_mem_succ gs h
      simp only [GameState.gsize]
      omega

/-- Claim C3 (amended): the cutoff policies never fire at depth 0, for
any snapshot and either active side, terminal snapshots included; only
depths strictly greater than 0 can cut off. -/
theorem C3_depth0_never_cuts (s : GameState) (p : Bool) :
    HMinimax0.cutoff s 0 p = false ∧ HMinimax1.cutoff s 0 p = false := by
  constructor <;> rfl

/-- Claim C3, counterexample to the original wording: a terminal
winning snapshot at the root (depth 0) is not cut off, and the search
does expand it instead of evaluating it directly (the returned move
comes from a successor). -/
theorem C3_counterexample :
    stWinRoot.win = true ∧
    HMinimax0.cutoff stWinRoot 0 true = false ∧
    (HMinimax0.hminimax_aux [] 0 stWinRoot Val.bot Val.top true 0).2 = some "East" ∧
    HMinimax1.cutoff stWinRoot 0 true = false ∧
    (HMinimax1.hminimax_aux stWinRoot Val.bot Val.top true [] 0).move = some "East" := by
  refine ⟨rfl, rfl, by decide, rfl, by decide⟩

/-- Claim C5: the distance gates of both heuristic cutoff policies.  At
depth greater than 0, on the maximising side a pacman-ghost Manhattan
distance strictly above 2 forces a cutoff, and on the minimising side a
distance of at least 2 forces a cutoff, regardless of any other state
(terminal snapshots are already cut off by the terminal rule). -/
theorem C5_distance_gates (s : GameState) (d : Nat) (p : Bool) (hd : 0 < d) :
    (p = true → 2 < manhattanDistance s.pacPos s.ghostPos →
      HMinimax0.cutoff s d p = true ∧ HMinimax1.cutoff s d p = true) ∧
    (p = false → 2 ≤ manhattanDistance s.pacPos s.ghostPos →
      HMinimax0.cutoff s d p = true ∧ HMinimax1.cutoff s d p = true) := by
  constructor
  · intro hp hdist
    subst hp
    refine ⟨?_, ?_⟩ <;>
      · simp only [HMinimax0.cutoff, HMinimax1.cutoff]
        rw [if_pos hd]
        by_cases hw : (s.win || s.lose) = true
        · rw [if_pos hw]
        · rw [if_neg hw, if_pos (by simp [hdist])]
  · intro hp hdist
    subst hp
    refine ⟨?_, ?_⟩ <;>
      · simp only [HMinimax0.cutoff, HMinimax1.cutoff]
        rw [if_pos hd]
        by_cases hw : (s.win || s.lose) = true
        · rw [if_pos hw]
        · rw [if_neg hw, if_pos (by simp [hdist])]

/-- Witness for C5 at concrete snapshots: distance 3 on the maximising
turn, distance 2 on the minimising turn. -/
theorem C5_distance_gates_witness :
    HMinimax0.cutoff (nodeState (0, 0) (3, 0) 0 [] []) 1 true = true ∧
    HMinimax1.cutoff (nodeState (0, 0) (2, 0) 0 [] []) 1 false = true :=
  ⟨((C5_distance_gates (nodeState (0, 0) (3, 0) 0 [] []) 1 true (by decide)).1
      rfl (by decide)).1,
   ((C5_distance_gates (nodeState (0, 0) (2, 0) 0 [] []) 1 false (by decide)).2
      rfl (by decide)).2⟩

/-- Claim C4: in heuristic variant A, at depth greater than 0, for a
non-terminal snapshot on which the distance gate of the active side
does not fire, the cutoff fires exactly when the adversary faces one of
the two delta-derived directions (East when the x-coordinate of the
adversary exceeds that of the agent, North when its y-coordinate
does, and symmetrically West and South). -/
theorem C4_orientation_gate (s : GameState) (d : Nat) (p : Bool) (hd : 0 < d)
    (hw : (s.win || s.lose) = false)
    (hdist : if p = true then manhattanDistance s.pacPos s.ghostPos ≤ 2
      else manhattanDistance s.pacPos s.ghostPos < 2) :
    (HMinimax0.cutoff s d p = true ↔
      (s.ghostDir = deltaHorizDir s ∨ s.ghostDir = deltaVertDir s)) := by
  simp only [HMinimax0.cutoff, deltaHorizDir, deltaVertDir]
  rw [if_pos hd, if_neg (by simp [hw])]
  cases p with
  | true =>
      simp only [if_pos] at hdist
      rw [if_neg (by simp only [if_pos]; simp only [decide_eq_true_eq]; omega)]
      generalize (if s.ghostPos.2 - s.pacPos.2 > 0 then "North"
        else if s.ghostPos.2 - s.pacPos.2 < 0 then "South" else "") = vdir
      generalize (if s.ghostPos.1 - s.pacPos.1 > 0 then "East"
        else if s.ghostPos.1 - s.pacPos.1 < 0 then "West" else "") = hdir
      by_cases h : vdir = s.ghostDir ∨ hdir = s.ghostDir
      · rw [if_pos h]
        simp only [eq_self_iff_true, true_iff]
        rcases h with h | h
        · exact Or.inr h.symm
        · exact Or.inl h.symm
      · rw [if_neg h]
        simp only [Bool.false_eq_true, false_iff]
        intro hc
        refine h ?_
        rcases hc with hc | hc
        · exact Or.inr hc.symm
        · exact Or.inl hc.symm
  | false =>
      simp only [Bool.false_eq_true, if_false] at hdist
      rw [if_neg (by simp only [Bool.false_eq_true, if_false,
            decide_eq_true_eq]; omega)]
      generalize (if s.ghostPos.2 - s.pacPos.2 > 0 then "North"
        else if s.ghostPos.2 - s.pacPos.2 < 0 then "South" else "") = vdir
      generalize (if s.ghostPos.1 - s.pacPos.1 > 0 then "East"
        else if s.ghostPos.1 - s.pacPos.1 < 0 then "West" else "") = hdir
      by_cases h : vdir = s.ghostDir ∨ hdir = s.ghostDir
      · rw [if_pos h]
        simp only [eq_self_iff_true, true_iff]
        rcases h with h | h
        · exact Or.inr h.symm
        · exact Or.inl h.symm
      · rw [if_neg h]
        simp only [Bool.false_eq_true, false_iff]
        intro hc
        refine h ?_
        rcases hc with hc | hc
        · exact Or.inr hc.symm
        · exact Or.inl hc.symm

/-- Witness for C4: the ghost one cell East of pacman and facing East
(matching the derived horizontal direction) is cut off on the
maximising turn at depth 1. -/
theorem C4_orientation_gate_witness :
    HMinimax0.cutoff
      (GameState.mk (0, 0) [] (1, 0) "East" 0 false false []
        SuccList.nil SuccList.nil) 1 true = true :=
  (C4_orientation_gate
    (GameState.mk (0, 0) [] (1, 0) "East" 0 false false []
      SuccList.nil SuccList.nil) 1 true (by decide) (by decide)
    (by decide)).mpr (by decide)

/-- Claim C2: when the search engine returns no move, `get_action`
returns the Python value `None` (the absence is pushed into the buffer
and popped back out); the `Directions.STOP` fallback of the dead
`IndexError` handler is not reached.  Shown on a winning terminal
snapshot, on which both buffering agents propagate `None`. -/
theorem C2_get_action_propagates_none :
    Minimax.minimax stD = none ∧
    Minimax.get_action [] stD = (none, []) ∧
    HMinimax1.hminimax stD = none ∧
    HMinimax1.get_action [] stD = (none, []) := by
  refine ⟨rfl, by decide, rfl, by decide⟩

/-- Claim C1, counterexample: on the snapshot `stR` the alpha-beta
search of `minimax.py` and the exhaustive non-pruned minimax (same
cutoff policy, same visited-table rule, same sentinel guards) disagree
on both the value and the selected move. -/
theorem C1_counterexample :
    (Minimax.minimax_aux stR Val.bot Val.top true []).value = Val.fin 1 ∧
    (Minimax.minimax_aux stR Val.bot Val.top true []).move = some "a3" ∧
    (Minimax.minimaxRefAux stR true []).value = Val.fin 0 ∧
    (Minimax.minimaxRefAux stR true []).move = some "a1" := by
  refine ⟨by decide, by decide, by decide, by decide⟩

theorem minimax_ghostLoop_move (next : GameState → Val → Val → Visited → Res) :
    ∀ (l : List (GameState × String)) (alpha beta minv : Val)
      (best : Option String) (vis : Visited),
      (Minimax.ghostLoop next l alpha beta minv best vis).move = best := by
  intro l
  induction l with
  | nil => intro alpha beta minv best vis; rfl
  | cons hd rest ih =>
      intro alpha beta minv best vis
      obtain ⟨c, a⟩ := hd
      simp only [Minimax.ghostLoop]
      repeat' split
      all_goals first | rfl | exact ih _ _ _ _ _

theorem hm0_ghostLoop_move (next : GameState → Val → Val → Val × Option String) :
    ∀ (l : List (GameState × String)) (alpha beta minv : Val) (best : Option String),
      (HMinimax0.ghostLoop next l alpha beta minv best).2 = best := by
  intro l
  induction l with
  | nil => intro alpha beta minv best; rfl
  | cons hd rest ih =>
      intro alpha beta minv best
      obtain ⟨c, a⟩ := hd
      simp only [HMinimax0.ghostLoop]
      repeat' split
      all_goals first | rfl | exact ih _ _ _ _

theorem hm1_ghostLoop_move (next : GameState → Val → Val → Visited → Res) :
    ∀ (l : List (GameState × String)) (alpha beta minv : Val)
      (best : Option String) (vis : Visited),
      (HMinimax1.ghostLoop next l alpha beta minv best vis).move = best := by
  intro l
  induction l with
  | nil => intro alpha beta minv best vis; rfl
  | cons hd rest ih =>
      intro alpha beta minv best vis
      obtain ⟨c, a⟩ := hd
      simp only [HMinimax1.ghostLoop]
      repeat' split
      all_goals first | rfl | exact ih _ _ _ _ _

theorem exists_fuel_succ (s : GameState) : ∃ f, s.gsize = f + 1 := by
  have := gameState_gsize_pos s
  exact ⟨s.gsize - 1, by omega⟩

/-- Claim C10: for a minimising-side call, in all three engines, the
move component of the returned pair is the no-move value `none`: the
minimiser tracks a running minimum but never records a move, on every
return path including the alpha-cutoff early return. -/
theorem C10_minimizer_returns_no_move :
    (∀ (s : GameState) (alpha beta : Val) (vis : Visited),
      (Minimax.minimax_aux s alpha beta false vis).move = none) ∧
    (∀ (pk : List HMinimax0.RevisitKey) (cs : ℚ) (s : GameState)
      (alpha beta : Val) (d : Nat),
      (HMinimax0.hminimax_aux pk cs s alpha beta false d).2 = none) ∧
    (∀ (s : GameState) (alpha beta : Val) (vis : Visited) (d : Nat),
      (HMinimax1.hminimax_aux s alpha beta false vis d).move = none) := by
  refine ⟨?_, ?_, ?_⟩
  · intro s alpha beta vis
    obtain ⟨f, hf⟩ := exists_fuel_succ s
    unfold Minimax.minimax_aux
    rw [hf]
    simp only [Minimax.minimaxAuxF]
    by_cases ht : Minimax.terminal s = true
    · rw [if_pos ht]
    · rw [if_neg ht]
      simp only [Bool.false_eq_true, if_false]
      exact minimax_ghostLoop_move _ _ _ _ _ _ _
  · intro pk cs s alpha beta d
    obtain ⟨f, hf⟩ := exists_fuel_succ s
    unfold HMinimax0.hminimax_aux
    rw [hf]
    simp only [HMinimax0.hminimaxAuxF]
    by_cases ht : HMinimax0.cutoff s d false = true
    · rw [if_pos ht]
    · rw [if_neg ht]
      simp only [Bool.false_eq_true, if_false]
      exact hm0_ghostLoop_move _ _ _ _ _ _
  · intro s alpha beta vis d
    obtain ⟨f, hf⟩ := exists_fuel_succ s
    unfold HMinimax1.hminimax_aux
    rw [hf]
    simp only [HMinimax1.hminimaxAuxF]
    by_cases ht : HMinimax1.cutoff s d false = true
    · rw [if_pos ht]
    · rw [if_neg ht]
      simp only [Bool.false_eq_true, if_false]
      exact hm1_ghostLoop_move _ _ _ _ _ _ _
theorem minimax_pacLoop_trace (P : Ev → Prop)
    (henter : ∀ k sc stored, Minimax.admissible stored sc = true → P (Ev.enter k sc stored)) :
    ∀ (l : List (GameState × String)) (next : GameState → Val → Val → Visited → Res),
      (∀ c a, (c, a) ∈ l → ∀ al be vi, ∀ e ∈ (next c al be vi).trace, P e) →
      ∀ (alpha beta maxv : Val) (best : Option String) (vis : Visited),
      ∀ e ∈ (Minimax.pacLoop next l alpha beta maxv best vis).trace, P e := by
  intro l next
  induction l with
  | nil =>
      intro hnext alpha beta maxv best vis e he
      simp [Minimax.pacLoop] at he
  | cons hd rest ih =>
      intro hnext alpha beta maxv best vis e he
      obtain ⟨c, a⟩ := hd
      simp only [Minimax.pacLoop] at he
      split at he
      · split at he <;> split at he <;>
          (rcases List.mem_cons.mp he with he1 | he2
           · subst he1
             exact henter _ _ _ (by assumption)
           · first
             | exact hnext c a (List.mem_cons_self _ _) _ _ _ e he2
             | (rcases List.mem_append.mp he2 with h3 | h3
                exacts [hnext c a (List.mem_cons_self _ _) _ _ _ e h3,
                  ih (fun c' a' hm al be vi e' he' =>
                    hnext c' a' (List.mem_cons_of_mem _ hm) al be vi e' he')
                    _ _ _ _ _ e h3]))
      · exact ih (fun c' a' hm al be vi e' he' =>
          hnext c' a' (List.mem_cons_of_mem _ hm) al be vi e' he') _ _ _ _ _ e he

theorem minimax_ghostLoop_trace (P : Ev → Prop)
    (henter : ∀ k sc stored, Minimax.admissible stored sc = true → P (Ev.enter k sc stored)) :
    ∀ (l : List (GameState × String)) (next : GameState → Val → Val → Visited → Res),
      (∀ c a, (c, a) ∈ l → ∀ al be vi, ∀ e ∈ (next c al be vi).trace, P e) →
      ∀ (alpha beta minv : Val) (best : Option String) (vis : Visited),
      ∀ e ∈ (Minimax.ghostLoop next l alpha beta minv best vis).trace, P e := by
  intro l next
  induction l with
  | nil =>
      intro hnext alpha beta minv best vis e he
      simp [Minimax.ghostLoop] at he
  | cons hd rest ih =>
      intro hnext alpha beta minv best vis e he
      obtain ⟨c, a⟩ := hd
      simp only [Minimax.ghostLoop] at he
      split at he
      · split at he <;> split at he <;>
          (rcases List.mem_cons.mp he with he1 | he2
           · subst he1
             exact henter _ _ _ (by assumption)
           · first
             | exact hnext c a (List.mem_cons_self _ _) _ _ _ e he2
             | (rcases List.mem_append.mp he2 with h3 | h3
                exacts [hnext c a (List.mem_cons_self _ _) _ _ _ e h3,
                  ih (fun c' a' hm al be vi e' he' =>
                    hnext c' a' (List.mem_cons_of_mem _ hm) al be vi e' he')
                    _ _ _ _ _ e h3]))
      · exact ih (fun c' a' hm al be vi e' he' =>
          hnext c' a' (List.mem_cons_of_mem _ hm) al be vi e' he') _ _ _ _ _ e he

theorem hm1_pacLoop_trace (P : Ev → Prop)
    (henter : ∀ k sc stored, Minimax.admissible stored sc = true → P (Ev.enter k sc stored)) :
    ∀ (l : List (GameState × String)) (next : GameState → Val → Val → Visited → Res),
      (∀ c a, (c, a) ∈ l → ∀ al be vi, ∀ e ∈ (next c al be vi).trace, P e) →
      ∀ (alpha beta maxv : Val) (best : Option String) (vis : Visited),
      ∀ e ∈ (HMinimax1.pacLoop next l alpha beta maxv best vis).trace, P e := by
  intro l next
  induction l with
  | nil =>
      intro hnext alpha beta maxv best vis e he
      simp [HMinimax1.pacLoop] at he
  | cons hd rest ih =>
      intro hnext alpha beta maxv best vis e he
      obtain ⟨c, a⟩ := hd
      simp only [HMinimax1.pacLoop] at he
      split at he
      · split at he <;> split at he <;>
          (rcases List.mem_cons.mp he with he1 | he2
           · subst he1
             exact henter _ _ _ (by assumption)
           · first
             | exact hnext c a (List.mem_cons_self _ _) _ _ _ e he2
             | (rcases List.mem_append.mp he2 with h3 | h3
                exacts [hnext c a (List.mem_cons_self _ _) _ _ _ e h3,
                  ih (fun c' a' hm al be vi e' he' =>
                    hnext c' a' (List.mem_cons_of_mem _ hm) al be vi e' he')
                    _ _ _ _ _ e h3]))
      · exact ih (fun c' a' hm al be vi e' he' =>
          hnext c' a' (List.mem_cons_of_mem _ hm) al be vi e' he') _ _ _ _ _ e he

theorem hm1_ghostLoop_trace (P : Ev → Prop)
    (henter : ∀ k sc stored, Minimax.admissible stored sc = true → P (Ev.enter k sc stored)) :
    ∀ (l : List (GameState × String)) (next : GameState → Val → Val → Visited → Res),
      (∀ c a, (c, a) ∈ l → ∀ al be vi, ∀ e ∈ (next c al be vi).trace, P e) →
      ∀ (alpha beta minv : Val) (best : Option String) (vis : Visited),
      ∀ e ∈ (HMinimax1.ghostLoop next l alpha beta minv best vis).trace, P e := by
  intro l next
  induction l with
  | nil =>
      intro hnext alpha beta minv best vis e he
      simp [HMinimax1.ghostLoop] at he
  | cons hd rest ih =>
      intro hnext alpha beta minv best vis e he
      obtain ⟨c, a⟩ := hd
      simp only [HMinimax1.ghostLoop] at he
      split at he
      · split at he <;> split at he <;>
          (rcases List.mem_cons.mp he with he1 | he2
           · subst he1
             exact henter _ _ _ (by assumption)
           · first
             | exact hnext c a (List.mem_cons_self _ _) _ _ _ e he2
             | (rcases List.mem_append.mp he2 with h3 | h3
                exacts [hnext c a (List.mem_cons_self _ _) _ _ _ e h3,
                  ih (fun c' a' hm al be vi e' he' =>
                    hnext c' a' (List.mem_cons_of_mem _ hm) al be vi e' he')
                    _ _ _ _ _ e h3]))
      · exact ih (fun c' a' hm al be vi e' he' =>
          hnext c' a' (List.mem_cons_of_mem _ hm) al be vi e' he') _ _ _ _ _ e he

theorem minimaxAuxF_trace (P : Ev → Prop)
    (henter : ∀ k sc stored, Minimax.admissible stored sc = true → P (Ev.enter k sc stored))
    (heval : ∀ s : GameState, Minimax.terminal s = true → P (Ev.evalSt s)) :
    ∀ (f : Nat) (s : GameState) (alpha beta : Val) (p : Bool) (vis : Visited),
      ∀ e ∈ (Minimax.minimaxAuxF f s alpha beta p vis).trace, P e := by
  intro f
  induction f with
  | zero =>
      intro s alpha beta p vis e he
      simp [Minimax.minimaxAuxF] at he
  | succ f ih =>
      intro s alpha beta p vis e he
      simp only [Minimax.minimaxAuxF] at he
      split at he
      · rcases List.mem_cons.mp he with he1 | he2
        · subst he1
          exact heval s (by assumption)
        · simp at he2
      · split at he
        · exact minimax_pacLoop_trace P henter _ _
            (fun c a hm al be vi e' he' => ih c al be false vi e' he') _ _ _ _ _ e he
        · exact minimax_ghostLoop_trace P henter _ _
            (fun c a hm al be vi e' he' => ih c al be true vi e' he') _ _ _ _ _ e he

theorem hm1AuxF_trace (P : Ev → Prop)
    (henter : ∀ k sc stored, Minimax.admissible stored sc = true → P (Ev.enter k sc stored))
    (heval : ∀ s : GameState, P (Ev.evalSt s)) :
    ∀ (f : Nat) (s : GameState) (alpha beta : Val) (p : Bool) (vis : Visited) (d : Nat),
      ∀ e ∈ (HMinimax1.hminimaxAuxF f s alpha beta p vis d).trace, P e := by
  intro f
  induction f with
  | zero =>
      intro s alpha beta p vis d e he
      simp [HMinimax1.hminimaxAuxF] at he
  | succ f ih =>
      intro s alpha beta p vis d e he
      simp only [HMinimax1.hminimaxAuxF] at he
      split at he
      · rcases List.mem_cons.mp he with he1 | he2
        · subst he1
          exact heval s
        · simp at he2
      · split at he
        · exact hm1_pacLoop_trace P henter _ _
            (fun c a hm al be vi e' he' => ih c al be false vi _ e' he') _ _ _ _ _ e he
        · exact hm1_ghostLoop_trace P henter _ _
            (fun c a hm al be vi e' he' => ih c al be true vi _ e' he') _ _ _ _ _ e he

theorem enterOk_of_admissible (k : StateKey) (sc : ℚ) (stored : Option ℚ)
    (h : Minimax.admissible stored sc = true) : enterOk (Ev.enter k sc stored) := by
  intro v hv
  rw [hv] at h
  simpa [Minimax.admissible] using h

/-- Claim C6: in the visited-table engines (`minimax.py` and
`hminimax1.py`), throughout one search, every recursive expansion of a
successor — and with it the only kind of visited-table write that can
overwrite an existing entry — happens only when the key was absent or
the stored score was strictly below the score of the successor; a
successor whose key is stored with a score greater than or equal to its
own is never recursed into. -/
theorem C6_visited_table_discipline :
    (∀ (s : GameState) (alpha beta : Val) (p : Bool) (vis : Visited),
      ∀ e ∈ (Minimax.minimax_aux s alpha beta p vis).trace, enterOk e) ∧
    (∀ (s : GameState) (alpha beta : Val) (p : Bool) (vis : Visited) (d : Nat),
      ∀ e ∈ (HMinimax1.hminimax_aux s alpha beta p vis d).trace, enterOk e) := by
  constructor
  · intro s alpha beta p vis
    exact minimaxAuxF_trace enterOk enterOk_of_admissible
      (fun s _ => by simp [enterOk]) _ s alpha beta p vis
  · intro s alpha beta p vis d
    exact hm1AuxF_trace enterOk enterOk_of_admissible
      (fun s => by simp [enterOk]) _ s alpha beta p vis d

/-- Witness for C6 on the concrete snapshots `stE` (plain engine) and
`stF` (heuristic engine B, with the shared key pre-stored at score 5):
the engines re-expand a stored key only with a strictly higher score,
and the theorem instantiated at those trace entries yields the strict
inequalities. -/
theorem C6_visited_table_discipline_witness : (3 : ℚ) < 7 ∧ (5 : ℚ) < 7 := by
  have h1 : (Minimax.minimax_aux stE Val.bot Val.top true []).trace =
      [Ev.enter ((5, 0), [], (9, 9), "North") 3 none, Ev.evalSt stE1,
       Ev.enter ((5, 0), [], (9, 9), "North") 7 (some 3), Ev.evalSt stE2] := rfl
  have h2 : (HMinimax1.hminimax_aux stF Val.bot Val.top true
        [((((6, 0), [], (9, 9), "North") : StateKey), (5 : ℚ))] 0).trace =
      [Ev.enter ((6, 0), [], (9, 9), "North") 7 (some 5), Ev.evalSt stF2] := rfl
  refine ⟨?_, ?_⟩
  · refine C6_visited_table_discipline.1 stE Val.bot Val.top true []
      (Ev.enter ((5, 0), [], (9, 9), "North") 7 (some 3)) ?_ 3 rfl
    rw [h1]
    exact List.Mem.tail _ (List.Mem.tail _ (List.Mem.head _))
  · refine C6_visited_table_discipline.2 stF Val.bot Val.top true
      [((((6, 0), [], (9, 9), "North") : StateKey), (5 : ℚ))] 0
      (Ev.enter ((6, 0), [], (9, 9), "North") 7 (some 5)) ?_ 5 rfl
    rw [h2]
    exact List.Mem.head _

/-- Claim C8: the plain engine of `minimax.py` is terminal-only and
binary.  Its utility is 1 exactly on wins and 0 otherwise, every
snapshot it ever evaluates is terminal, and on a winning snapshot the
search returns value 1 paired with no move (and performs nothing but
that one evaluation). -/
theorem C8_plain_engine_binary_terminal :
    (∀ s : GameState, Minimax.utility_function s = Val.fin 1 ∨
      Minimax.utility_function s = Val.fin 0) ∧
    (∀ s : GameState, Minimax.utility_function s = Val.fin 1 ↔ s.win = true) ∧
    (∀ (s : GameState) (alpha beta : Val) (p : Bool) (vis : Visited),
      ∀ e ∈ (Minimax.minimax_aux s alpha beta p vis).trace, evalTerminal e) ∧
    (∀ (s : GameState) (alpha beta : Val) (p : Bool) (vis : Visited),
      s.win = true →
      Minimax.minimax_aux s alpha beta p vis =
        ⟨Val.fin 1, none, vis, [Ev.evalSt s]⟩) := by
  refine ⟨?_, ?_, ?_, ?_⟩
  · intro s
    cases hw : s.win
    · right; simp [Minimax.utility_function, hw]
    · left; simp [Minimax.utility_function, hw]
  · intro s
    cases hw : s.win
    · simp [Minimax.utility_function, hw]
    · simp [Minimax.utility_function, hw]
  · intro s alpha beta p vis
    exact minimaxAuxF_trace evalTerminal
      (fun k sc stored _ => by simp [evalTerminal])
      (fun s ht => by simpa [evalTerminal] using ht) _ s alpha beta p vis
  · intro s alpha beta p vis hw
    obtain ⟨f, hf⟩ := exists_fuel_succ s
    unfold Minimax.minimax_aux
    rw [hf]
    simp only [Minimax.minimaxAuxF]
    rw [if_pos (by simp [Minimax.terminal, hw])]
    simp [Minimax.utility_function, hw]

/-- Witness for C8 on the winning terminal snapshot `stD`: the search
returns value 1 with no move, and the single evaluated snapshot is the
terminal root itself. -/
theorem C8_plain_engine_binary_terminal_witness :
    Minimax.minimax_aux stD Val.bot Val.top true [] =
      ⟨Val.fin 1, none, [], [Ev.evalSt stD]⟩ ∧
    Minimax.terminal stD = true := by
  constructor
  · exact C8_plain_engine_binary_terminal.2.2.2 stD Val.bot Val.top true [] rfl
  · have hmem : Ev.evalSt stD ∈ (Minimax.minimax_aux stD Val.bot Val.top true []).trace := by
      have h : (Minimax.minimax_aux stD Val.bot Val.top true []).trace = [Ev.evalSt stD] := rfl
      rw [h]
      exact List.Mem.head _
    have := C8_plain_engine_binary_terminal.2.2.1 stD Val.bot Val.top true []
      (Ev.evalSt stD) hmem
    simpa [evalTerminal] using this

theorem vlt_self (v : Val) : vlt v v = false := by
  cases v <;> simp [vlt]

theorem vlt_bot_fin (q : ℚ) : vlt Val.bot (Val.fin q) = true := rfl

theorem beq_fin_top (q : ℚ) : (Val.fin q == Val.top) = false := rfl

theorem vle_top_fin (q : ℚ) : vle Val.top (Val.fin q) = false := rfl

theorem vmax_bot_fin (q : ℚ) : vmax Val.bot (Val.fin q) = Val.fin q := rfl

/-- Claim C9: in the maximising branch, a successor whose returned
value merely equals the current best value does not overwrite the best
move: with two successors of equal value the first-enumerated move is
kept.  Stated for the heuristic engine of `hminimax0.py` (two cutoff
successors of equal evaluation) and for the plain engine of
`minimax.py` (two terminal successors of equal utility, distinct state
keys, fresh table). -/
theorem C9_first_tie_kept :
    (∀ (pk : List HMinimax0.RevisitKey) (cs : ℚ) (s c1 c2 : GameState)
        (a1 a2 : String) (q : ℚ),
      s.pacSucc = [(c1, a1), (c2, a2)] →
      HMinimax0.cutoff s 0 true = false →
      HMinimax0.cutoff c1 1 false = true →
      HMinimax0.cutoff c2 1 false = true →
      HMinimax0.eval_function pk cs c1 = q →
      HMinimax0.eval_function pk cs c2 = q →
      HMinimax0.hminimax_aux pk cs s Val.bot Val.top true 0 =
        (Val.fin q, some a1)) ∧
    (∀ (s c1 c2 : GameState) (a1 a2 : String),
      s.pacSucc = [(c1, a1), (c2, a2)] →
      Minimax.terminal s = false →
      Minimax.terminal c1 = true →
      Minimax.terminal c2 = true →
      c1.win = c2.win →
      Minimax.key c1 ≠ Minimax.key c2 →
      (Minimax.minimax_aux s Val.bot Val.top true []).value =
          Minimax.utility_function c1 ∧
        (Minimax.minimax_aux s Val.bot Val.top true []).move = some a1) := by
  constructor
  · intro pk cs s c1 c2 a1 a2 q hsucc hc0 hc1 hc2 he1 he2
    obtain ⟨f, hf⟩ := exists_fuel_succ s
    have hchild : ∀ (c : GameState) (al be : Val),
        HMinimax0.cutoff c 1 false = true →
        HMinimax0.hminimaxAuxF pk cs f c al be false 1 =
          (Val.fin (HMinimax0.eval_function pk cs c), none) := by
      intro c al be hc
      obtain ⟨g, hg⟩ : ∃ g, f = g + 1 := by
        have h1 : c1.gsize < s.gsize :=
          gsize_lt_of_mem_pacSucc (by rw [hsucc]; exact List.mem_cons_self _ _)
        have h2 := gameState_gsize_pos c1
        exact ⟨f - 1, by omega⟩
      rw [hg]
      simp only [HMinimax0.hminimaxAuxF]
      rw [if_pos hc]
    unfold HMinimax0.hminimax_aux
    rw [hf]
    simp only [HMinimax0.hminimaxAuxF]
    rw [if_neg (by simp [hc0])]
    simp only [if_true, hsucc, Nat.zero_add]
    simp only [HMinimax0.pacLoop, hchild c1 Val.bot Val.top hc1, he1,
      vlt_bot_fin, beq_fin_top, Bool.not_false, Bool.and_self, if_true,
      vle_top_fin, Bool.false_eq_true, if_false, vmax_bot_fin]
    simp only [hchild c2 (Val.fin q) Val.top hc2, he2, vlt_self,
      Bool.false_and, Bool.false_eq_true, if_false, vle_top_fin,
      HMinimax0.pacLoop]
  · intro s c1 c2 a1 a2 hsucc hts ht1 ht2 hwin hkey
    obtain ⟨f, hf⟩ := exists_fuel_succ s
    have hchild : ∀ (c : GameState) (al be : Val) (vi : Visited),
        Minimax.terminal c = true →
        Minimax.minimaxAuxF f c al be false vi =
          ⟨Minimax.utility_function c, none, vi, [Ev.evalSt c]⟩ := by
      intro c al be vi hc
      obtain ⟨g, hg⟩ : ∃ g, f = g + 1 := by
        have h1 : c1.gsize < s.gsize :=
          gsize_lt_of_mem_pacSucc (by rw [hsucc]; exact List.mem_cons_self _ _)
        have h2 := gameState_gsize_pos c1
        exact ⟨f - 1, by omega⟩
      rw [hg]
      simp only [Minimax.minimaxAuxF]
      rw [if_pos hc]
    have hu : Minimax.utility_function c2 = Minimax.utility_function c1 := by
      simp [Minimax.utility_function, hwin]
    unfold Minimax.minimax_aux
    rw [hf]
    simp only [Minimax.minimaxAuxF]
    rw [if_neg (by simp [hts])]
    simp only [if_true, hsucc]
    simp only [Minimax.pacLoop, lookupV, Minimax.admissible, if_true,
      hchild c1 _ _ _ ht1]
    simp only [insertV, lookupV, if_neg hkey, Minimax.admissible,
      hchild c2 _ _ _ ht2, hu]
    simp only [Minimax.utility_function, vlt_bot_fin, beq_fin_top,
      Bool.not_false, Bool.and_self, if_true, vle_top_fin,
      Bool.false_eq_true, if_false, vmax_bot_fin, vlt_self, Bool.false_and,
      Minimax.pacLoop]
    constructor <;> first | rfl | trivial

theorem stT1_eval : HMinimax0.eval_function [] 0 stT1 = 9 / 2 := by
  simp [HMinimax0.eval_function, HMinimax0.foodScan, stT1, leafState,
    GameState.score, GameState.pacPos, GameState.ghostPos, GameState.food,
    GameState.legalActions, manhattanDistance, vToRat]
  norm_num

theorem stT2_eval : HMinimax0.eval_function [] 0 stT2 = 9 / 2 := by
  simp [HMinimax0.eval_function, HMinimax0.foodScan, stT2, leafState,
    GameState.score, GameState.pacPos, GameState.ghostPos, GameState.food,
    GameState.legalActions, manhattanDistance, vToRat]
  norm_num

/-- Witness for C9 on the concrete snapshot `stT`: both successors
evaluate to 9/2 (heuristic engine) and to utility 0 (plain engine), and
both engines keep the first-enumerated move t1. -/
theorem C9_first_tie_kept_witness :
    HMinimax0.hminimax_aux [] 0 stT Val.bot Val.top true 0 =
      (Val.fin (9 / 2), some "t1") ∧
    (Minimax.minimax_aux stT Val.bot Val.top true []).value = Val.fin 0 ∧
    (Minimax.minimax_aux stT Val.bot Val.top true []).move = some "t1" := by
  refine ⟨C9_first_tie_kept.1 [] 0 stT stT1 stT2 "t1" "t2" (9 / 2) rfl
      (by decide) (by decide) (by decide) stT1_eval stT2_eval, ?_, ?_⟩
  · have h := C9_first_tie_kept.2 stT stT1 stT2 "t1" "t2" rfl
      (by decide) (by decide) (by decide) rfl (by decide)
    rw [h.1]
    decide
  · exact (C9_first_tie_kept.2 stT stT1 stT2 "t1" "t2" rfl
      (by decide) (by decide) (by decide) rfl (by decide)).2

theorem minFoodDistVal_nil (pac : Int × Int) : minFoodDistVal [] pac = Val.top := rfl

theorem minFoodDistVal_cons (pac : Int × Int) (c : Int × Int) (cs : List (Int × Int)) :
    minFoodDistVal (c :: cs) pac =
      vmin (Val.fin (manhattanDistance c pac : ℚ)) (minFoodDistVal cs pac) := rfl

theorem minFoodDistVal_append (pac : Int × Int) :
    ∀ (xs ys : List (Int × Int)),
      toW (minFoodDistVal (xs ++ ys) pac) =
        min (toW (minFoodDistVal xs pac)) (toW (minFoodDistVal ys pac)) := by
  intro xs ys
  induction xs with
  | nil =>
      simp only [List.nil_append, minFoodDistVal_nil]
      rw [show toW Val.top = (⊤ : W) from rfl, min_eq_right le_top]
  | cons c rest ih =>
      simp only [List.cons_append, minFoodDistVal_cons, toW_vmin, ih, min_assoc]

theorem hm1_foodRowScan_count (pac : Int × Int) (i : Int) :
    ∀ (row : List Bool) (j : Int) (n : Nat) (mn : Val),
      (HMinimax1.foodRowScan pac i row j (n, mn)).1 =
        n + (rowCells i row j).length := by
  intro row
  induction row with
  | nil => intro j n mn; simp [HMinimax1.foodRowScan, rowCells]
  | cons e rest ih =>
      intro j n mn
      cases e with
      | true =>
          simp only [HMinimax1.foodRowScan, if_true, rowCells, ih,
            List.singleton_append, List.length_cons]
          omega
      | false =>
          simp only [HMinimax1.foodRowScan, Bool.false_eq_true, if_false,
            rowCells, ih, List.nil_append]

theorem hm1_foodRowScan_min (pac : Int × Int) (i : Int) :
    ∀ (row : List Bool) (j : Int) (n : Nat) (mn : Val),
      toW (HMinimax1.foodRowScan pac i row j (n, mn)).2 =
        min (toW mn) (toW (minFoodDistVal (rowCells i row j) pac)) := by
  intro row
  induction row with
  | nil =>
      intro j n mn
      simp only [HMinimax1.foodRowScan, rowCells, minFoodDistVal_nil]
      rw [show toW Val.top = (⊤ : W) from rfl, min_eq_left le_top]
  | cons e rest ih =>
      intro j n mn
      cases e with
      | true =>
          simp only [HMinimax1.foodRowScan, if_true, rowCells,
            List.singleton_append, minFoodDistVal_cons, ih]
          rw [show (if vlt (Val.fin (manhattanDistance (i, j) pac : ℚ)) mn
              then Val.fin (manhattanDistance (i, j) pac : ℚ) else mn) =
              vmin mn (Val.fin (manhattanDistance (i, j) pac : ℚ)) from rfl]
          rw [toW_vmin, toW_vmin, min_assoc]
      | false =>
          simp only [HMinimax1.foodRowScan, Bool.false_eq_true, if_false,
            rowCells, ih, List.nil_append]

theorem hm1_foodScan_count (pac : Int × Int) :
    ∀ (food : List (List Bool)) (i : Int) (n : Nat) (mn : Val),
      (HMinimax1.foodScan pac food i (n, mn)).1 = n + (foodCells food i).length := by
  intro food
  induction food with
  | nil => intro i n mn; simp [HMinimax1.foodScan, foodCells]
  | cons row rest ih =>
      intro i n mn
      simp only [HMinimax1.foodScan, foodCells, List.length_append]
      rw [show HMinimax1.foodRowScan pac i row 0 (n, mn) =
          ((HMinimax1.foodRowScan pac i row 0 (n, mn)).1,
           (HMinimax1.foodRowScan pac i row 0 (n, mn)).2) from rfl]
      rw [ih, hm1_foodRowScan_count]
      omega

theorem hm1_foodScan_min (pac : Int × Int) :
    ∀ (food : List (List Bool)) (i : Int) (n : Nat) (mn : Val),
      toW (HMinimax1.foodScan pac food i (n, mn)).2 =
        min (toW mn) (toW (minFoodDistVal (foodCells food i) pac)) := by
  intro food
  induction food with
  | nil =>
      intro i n mn
      simp only [HMinimax1.foodScan, foodCells, minFoodDistVal_nil]
      rw [show toW Val.top = (⊤ : W) from rfl, min_eq_left le_top]
  | cons row rest ih =>
      intro i n mn
      simp only [HMinimax1.foodScan, foodCells]
      rw [show HMinimax1.foodRowScan pac i row 0 (n, mn) =
          ((HMinimax1.foodRowScan pac i row 0 (n, mn)).1,
           (HMinimax1.foodRowScan pac i row 0 (n, mn)).2) from rfl]
      rw [ih, hm1_foodRowScan_min, minFoodDistVal_append, min_assoc]

theorem hm0_foodRowScan_empty (pac : Int × Int) (i : Int) :
    ∀ (row : List Bool) (j : Int) (acc : Nat × Val × Val),
      rowCells i row j = [] → HMinimax0.foodRowScan pac i row j acc = acc := by
  intro row
  induction row with
  | nil => intro j acc h; rfl
  | cons e rest ih =>
      intro j acc h
      simp only [rowCells] at h
      rcases List.append_eq_nil.mp h with ⟨h1, h2⟩
      cases e with
      | true => simp at h1
      | false =>
          simp only [HMinimax0.foodRowScan, Bool.false_eq_true, if_false]
          exact ih (j + 1) acc h2

theorem hm0_foodScan_empty (pac : Int × Int) :
    ∀ (food : List (List Bool)) (i : Int) (acc : Nat × Val × Val),
      foodCells food i = [] → HMinimax0.foodScan pac food i acc = acc := by
  intro food
  induction food with
  | nil => intro i acc h; rfl
  | cons row rest ih =>
      intro i acc h
      simp only [foodCells] at h
      rcases List.append_eq_nil.mp h with ⟨h1, h2⟩
      simp only [HMinimax0.foodScan]
      rw [hm0_foodRowScan_empty pac i row 0 acc h1]
      exact ih (i + 1) acc h2

/-- Claim C7: variant B evaluates a snapshot to exactly
score − 4·(Manhattan distance to the nearest remaining target)
− 10·(number of remaining targets), with a distance of 0 substituted
when no targets remain (in which case the evaluation is exactly the
score); the zero-target substitution also holds in variant A, where all
food-distance and food-count terms vanish. -/
theorem C7_eval_functions :
    (∀ s : GameState, HMinimax1.eval_function s =
      s.score - 4 * vToRat (if foodCells s.food 0 = [] then Val.fin 0
          else minFoodDistVal (foodCells s.food 0) s.pacPos)
        - 10 * ((foodCells s.food 0).length : ℚ)) ∧
    (∀ s : GameState, foodCells s.food 0 = [] →
      HMinimax1.eval_function s = s.score) ∧
    (∀ (pk : List HMinimax0.RevisitKey) (cs : ℚ) (s : GameState),
      foodCells s.food 0 = [] →
      HMinimax0.eval_function pk cs s = s.score - cs
        - (if (s.pacPos, s.food) ∈ pk then (400 : ℚ) else 0)
        + 1 / 2 * (manhattanDistance s.pacPos s.ghostPos : ℚ)
        + 1 / 2 * (s.legalActions.length : ℚ)) := by
  have main : ∀ s : GameState, HMinimax1.eval_function s =
      s.score - 4 * vToRat (if foodCells s.food 0 = [] then Val.fin 0
          else minFoodDistVal (foodCells s.food 0) s.pacPos)
        - 10 * ((foodCells s.food 0).length : ℚ) := by
    intro s
    have hmin := hm1_foodScan_min s.pacPos s.food 0 0 Val.top
    rw [show toW Val.top = (⊤ : W) from rfl, min_eq_right le_top] at hmin
    have hmin' : (HMinimax1.foodScan s.pacPos s.food 0 (0, Val.top)).2 =
        minFoodDistVal (foodCells s.food 0) s.pacPos := toW_inj.mp hmin
    have hcount := hm1_foodScan_count s.pacPos s.food 0 0 Val.top
    simp only [Nat.zero_add] at hcount
    simp only [HMinimax1.eval_function, hcount, hmin']
    by_cases hc : foodCells s.food 0 = []
    · rw [if_pos (by rw [hc]; rfl), if_pos hc]
    · rw [if_neg (by simpa using hc), if_neg hc]
  refine ⟨main, ?_, ?_⟩
  · intro s hc
    rw [main s, if_pos hc, hc]
    norm_num [vToRat]
  · intro pk cs s hc
    simp only [HMinimax0.eval_function]
    rw [hm0_foodScan_empty s.pacPos s.food 0 (0, Val.top, Val.bot) hc]
    norm_num [vToRat]

/-- Witness for C7 on the zero-target snapshot `stD`: variant B
evaluates it to its bare score, and variant A to the formula with all
food terms gone. -/
theorem C7_eval_functions_witness :
    HMinimax1.eval_function stD = stD.score ∧
    HMinimax0.eval_function [] 0 stD = stD.score - 0
      - (if (stD.pacPos, stD.food) ∈ ([] : List HMinimax0.RevisitKey)
          then (400 : ℚ) else 0)
      + 1 / 2 * (manhattanDistance stD.pacPos stD.ghostPos : ℚ)
      + 1 / 2 * (stD.legalActions.length : ℚ) :=
  ⟨C7_eval_functions.2.1 stD rfl, C7_eval_functions.2.2 [] 0 stD rfl⟩

theorem KM_refl (alpha beta m : W) : KM alpha beta m m :=
  ⟨fun h => h, fun h => h, fun _ _ => rfl, fun h => ⟨le_refl _, h⟩,
   fun h => ⟨h, le_refl _⟩⟩

theorem hm0_refPacLoop_mono (nextR : GameState → Val × Option String) :
    ∀ (l : List (GameState × String)) (maxv : Val) (best : Option String),
      toW maxv ≤ toW (HMinimax0.refPacLoop nextR l maxv best).1 := by
  intro l
  induction l with
  | nil => intro maxv best; exact le_refl _
  | cons hd rest ih =>
      intro maxv best
      obtain ⟨c, a⟩ := hd
      simp only [HMinimax0.refPacLoop]
      split
      · next h =>
          simp only [Bool.and_eq_true] at h
          exact le_trans (vlt_iff.mp h.1).le (ih _ _)
      · exact ih _ _

theorem hm0_refPacLoop_ne_top (nextR : GameState → Val × Option String) :
    ∀ (l : List (GameState × String)) (maxv : Val) (best : Option String),
      toW maxv ≠ ⊤ → toW (HMinimax0.refPacLoop nextR l maxv best).1 ≠ ⊤ := by
  intro l
  induction l with
  | nil => intro maxv best h; exact h
  | cons hd rest ih =>
      intro maxv best h
      obtain ⟨c, a⟩ := hd
      simp only [HMinimax0.refPacLoop]
      split
      · next hu =>
          simp only [Bool.and_eq_true, Bool.not_eq_true'] at hu
          exact ih _ _ (beq_top_false_iff.mp hu.2)
      · exact ih _ _ h

theorem hm0_refGhostLoop_mono (nextR : GameState → Val × Option String) :
    ∀ (l : List (GameState × String)) (minv : Val) (best : Option String),
      toW (HMinimax0.refGhostLoop nextR l minv best).1 ≤ toW minv := by
  intro l
  induction l with
  | nil => intro minv best; exact le_refl _
  | cons hd rest ih =>
      intro minv best
      obtain ⟨c, a⟩ := hd
      simp only [HMinimax0.refGhostLoop]
      split
      · next h =>
          simp only [Bool.and_eq_true] at h
          exact le_trans (ih _ _) (vlt_iff.mp h.1).le
      · exact ih _ _

theorem hm0_refGhostLoop_ne_bot (nextR : GameState → Val × Option String) :
    ∀ (l : List (GameState × String)) (minv : Val) (best : Option String),
      toW minv ≠ ⊥ → toW (HMinimax0.refGhostLoop nextR l minv best).1 ≠ ⊥ := by
  intro l
  induction l with
  | nil => intro minv best h; exact h
  | cons hd rest ih =>
      intro minv best h
      obtain ⟨c, a⟩ := hd
      simp only [HMinimax0.refGhostLoop]
      split
      · next hu =>
          simp only [Bool.and_eq_true, Bool.not_eq_true'] at hu
          exact ih _ _ (beq_bot_false_iff.mp hu.2)
      · exact ih _ _ h

theorem vlt_bot_right (v : Val) : vlt v Val.bot = false := by
  cases v <;> simp [vlt]

theorem vlt_top_left (v : Val) : vlt Val.top v = false := by
  cases v <;> simp [vlt]

theorem hm0_pacLoop_KM
    (nextA : GameState → Val → Val → Val × Option String)
    (nextR : GameState → Val × Option String)
    (alpha beta : Val) (hab : toW alpha < toW beta) :
    ∀ (l : List (GameState × String)),
      (∀ c a, (c, a) ∈ l → ∀ (al be : Val), toW al < toW be →
        KM (toW al) (toW be) (toW (nextR c).1) (toW (nextA c al be).1)) →
      ∀ (maxR maxA : Val) (bestR bestA : Option String) (alphaCur : Val),
        toW alphaCur = max (toW alpha) (toW maxA) →
        toW maxA < toW beta →
        toW maxR ≠ ⊤ →
        toW maxA ≠ ⊤ →
        ((toW maxR ≤ toW alpha ∧ toW maxR ≤ toW maxA ∧ toW maxA ≤ toW alpha ∧
            (toW maxR = ⊥ → toW maxA = ⊥)) ∨
          (toW alpha < toW maxR ∧ toW maxA = toW maxR)) →
        toW (HMinimax0.refPacLoop nextR l maxR bestR).1 ≠ ⊤ ∧
        KM (toW alpha) (toW beta)
          (toW (HMinimax0.refPacLoop nextR l maxR bestR).1)
          (toW (HMinimax0.pacLoop nextA l alphaCur beta maxA bestA).1) := by
  intro l
  induction l with
  | nil =>
      intro _ maxR maxA bestR bestA alphaCur hac hAb hRt hAt hinv
      simp only [HMinimax0.refPacLoop, HMinimax0.pacLoop]
      refine ⟨hRt, fun h => absurd h hRt, ?_, ?_, ?_, ?_⟩
      · rcases hinv with ⟨h1, h2, h3, h4⟩ | ⟨h1, h2⟩
        · exact h4
        · intro h; rw [h] at h1; exact absurd h1 (not_lt_bot)
      · rcases hinv with ⟨h1, h2, h3, h4⟩ | ⟨h1, h2⟩
        · intro hlt _; exact absurd hlt h1.not_lt
        · intro _ _; exact h2
      · rcases hinv with ⟨h1, h2, h3, h4⟩ | ⟨h1, h2⟩
        · intro _; exact ⟨h2, h3⟩
        · intro h; exact absurd h h1.not_le
      · rcases hinv with ⟨h1, h2, h3, h4⟩ | ⟨h1, h2⟩
        · intro h; exact absurd ((h.trans h1).trans_lt hab) (lt_irrefl _)
        · intro h; exact absurd (lt_of_le_of_lt (h.trans h2.ge) hAb) (lt_irrefl _)
  | cons hd rest ih =>
      intro hnext maxR maxA bestR bestA alphaCur hac hAb hRt hAt hinv
      obtain ⟨c, a⟩ := hd
      have hmemrest : ∀ c' a', (c', a') ∈ rest → ∀ (al be : Val),
          toW al < toW be →
          KM (toW al) (toW be) (toW (nextR c').1) (toW (nextA c' al be).1) :=
        fun c' a' hm => hnext c' a' (List.mem_cons_of_mem _ hm)
      have hαle : toW alpha ≤ toW alphaCur := by rw [hac]; exact le_max_left _ _
      have hAle : toW maxA ≤ toW alphaCur := by rw [hac]; exact le_max_right _ _
      have hacb : toW alphaCur < toW beta := by rw [hac]; exact max_lt hab hAb
      obtain ⟨k1, k2, k3, k4, k5⟩ := hnext c a (List.mem_cons_self _ _) alphaCur beta hacb
      simp only [HMinimax0.refPacLoop, HMinimax0.pacLoop]
      by_cases hmt : toW (nextR c).1 = ⊤
      · rw [toW_eq_top_iff.mp hmt, toW_eq_top_iff.mp (k1 hmt)]
        simp only [beq_self_eq_true, Bool.not_true, Bool.and_false,
          Bool.false_eq_true, if_false]
        rw [if_neg (by simp [vle_false_iff.mpr hAb])]
        have hac' : toW (vmax alphaCur maxA) = max (toW alpha) (toW maxA) := by
          rw [toW_vmax, hac, max_assoc, max_self]
        exact ih hmemrest maxR maxA bestR bestA _ hac' hAb hRt hAt hinv
      · by_cases hmb : toW (nextR c).1 = ⊥
        · rw [toW_eq_bot_iff.mp hmb, toW_eq_bot_iff.mp (k2 hmb)]
          simp only [vlt_bot_right, Bool.false_and, Bool.false_eq_true, if_false]
          rw [if_neg (by simp [vle_false_iff.mpr hAb])]
          have hac' : toW (vmax alphaCur maxA) = max (toW alpha) (toW maxA) := by
            rw [toW_vmax, hac, max_assoc, max_self]
          exact ih hmemrest maxR maxA bestR bestA _ hac' hAb hRt hAt hinv
        · have hmbeqt : ((nextR c).1 == Val.top) = false := beq_top_false_iff.mpr hmt
          rcases le_or_lt (toW (nextR c).1) (toW alphaCur) with hcase | hcase
          · -- value at most alphaCur on both sides; updates stay under alpha
            obtain ⟨hmv, hva⟩ := k4 hcase
            have hvt : toW (nextA c alphaCur beta).1 ≠ ⊤ := by
              intro h
              rw [h] at hva
              rw [top_le_iff.mp hva] at hacb
              exact not_top_lt hacb
            have hvbeqt : ((nextA c alphaCur beta).1 == Val.top) = false :=
              beq_top_false_iff.mpr hvt
            simp only [hmbeqt, hvbeqt, Bool.not_false, Bool.and_true]
            rcases hinv with ⟨h1, h2, h3, h4⟩ | ⟨h1, h2⟩
            · have hacα : toW alphaCur = toW alpha := by rw [hac, max_eq_left h3]
              rw [show (if vlt maxR (nextR c).1 = true then (nextR c).1 else maxR) =
                  vmax maxR (nextR c).1 from rfl]
              rw [show (if vlt maxA (nextA c alphaCur beta).1 = true
                    then (nextA c alphaCur beta).1 else maxA) =
                  vmax maxA (nextA c alphaCur beta).1 from rfl]
              have hEmax : toW (vmax maxA (nextA c alphaCur beta).1) ≤ toW alpha := by
                rw [toW_vmax]
                exact max_le h3 (hva.trans_eq hacα)
              have hEearly : vle beta (vmax maxA (nextA c alphaCur beta).1) = false :=
                vle_false_iff.mpr (lt_of_le_of_lt hEmax hab)
              simp only [hEearly, Bool.false_eq_true, if_false]
              have hac' : toW (vmax alphaCur (vmax maxA (nextA c alphaCur beta).1)) =
                  max (toW alpha) (toW (vmax maxA (nextA c alphaCur beta).1)) := by
                rw [toW_vmax, toW_vmax, hac, max_assoc,
                  ← max_assoc (toW maxA) (toW maxA), max_self]
              have hRt' : toW (vmax maxR (nextR c).1) ≠ ⊤ := by
                rw [toW_vmax]
                intro h
                rcases max_choice (toW maxR) (toW (nextR c).1) with hc | hc <;>
                  rw [hc] at h
                exacts [hRt h, hmt h]
              have hAt' : toW (vmax maxA (nextA c alphaCur beta).1) ≠ ⊤ := by
                rw [toW_vmax]
                intro h
                rcases max_choice (toW maxA) (toW (nextA c alphaCur beta).1) with hc | hc <;>
                  rw [hc] at h
                exacts [hAt h, hvt h]
              refine ih hmemrest _ _ _ _ _ hac'
                (lt_of_le_of_lt hEmax hab) hRt' hAt' (Or.inl ⟨?_, ?_, ?_, ?_⟩)
              · rw [toW_vmax]
                exact max_le h1 (hcase.trans_eq hacα)
              · rw [toW_vmax, toW_vmax]
                exact max_le_max h2 hmv
              · exact hEmax
              · intro h
                rw [toW_vmax] at h
                exact absurd (le_bot_iff.mp (h ▸ le_max_right _ _)) hmb
            · have hacA : toW alphaCur = toW maxA := by
                rw [hac, max_eq_right (le_of_lt (h2 ▸ h1))]
              have huR : vlt maxR (nextR c).1 = false :=
                vlt_false_iff.mpr (hcase.trans (hacA.trans h2).le)
              have huA : vlt maxA (nextA c alphaCur beta).1 = false :=
                vlt_false_iff.mpr (hva.trans hacA.le)
              simp only [huR, huA, Bool.false_eq_true, if_false]
              rw [if_neg (by simp [vle_false_iff.mpr hAb])]
              have hac' : toW (vmax alphaCur maxA) = max (toW alpha) (toW maxA) := by
                rw [toW_vmax, hac, max_assoc, max_self]
              exact ih hmemrest maxR maxA bestR bestA _ hac' hAb hRt hAt
                (Or.inr ⟨h1, h2⟩)
          · have hRle : toW maxR ≤ toW alphaCur := by
              rcases hinv with ⟨h1, h2, h3, h4⟩ | ⟨h1, h2⟩
              · exact h1.trans hαle
              · exact h2.ge.trans hAle
            rcases lt_or_le (toW (nextR c).1) (toW beta) with hcase2 | hcase2
            · -- exact-window case: both engines adopt the same new maximum
              have hveq : toW (nextA c alphaCur beta).1 = toW (nextR c).1 :=
                k3 hcase hcase2
              have hA1 : vlt maxA (nextA c alphaCur beta).1 = true :=
                vlt_iff.mpr (by rw [hveq]; exact lt_of_le_of_lt hAle hcase)
              have hR1 : vlt maxR (nextR c).1 = true :=
                vlt_iff.mpr (lt_of_le_of_lt hRle hcase)
              have hvbeqt : ((nextA c alphaCur beta).1 == Val.top) = false :=
                beq_top_false_iff.mpr (by rw [hveq]; exact hmt)
              simp only [hmbeqt, hvbeqt, Bool.not_false, Bool.and_true, hA1, hR1,
                if_true]
              rw [if_neg (by
                simp [vle_false_iff.mpr (show toW (nextA c alphaCur beta).1 < toW beta
                  from hveq ▸ hcase2)])]
              rw [toW_inj.mp hveq]
              have hac' : toW (vmax alphaCur (nextR c).1) =
                  max (toW alpha) (toW (nextR c).1) := by
                rw [toW_vmax, hac, max_assoc,
                  max_eq_right (le_of_lt (lt_of_le_of_lt hAle hcase))]
              exact ih hmemrest _ _ _ _ _ hac' hcase2 hmt hmt
                (Or.inr ⟨lt_of_le_of_lt hαle hcase, rfl⟩)
            · -- fail-high case: the pruned loop beta-cuts
              obtain ⟨hbv, hvm⟩ := k5 hcase2
              have hvt : toW (nextA c alphaCur beta).1 ≠ ⊤ := by
                intro h
                rw [h] at hvm
                exact hmt (top_le_iff.mp hvm)
              have hvbeqt : ((nextA c alphaCur beta).1 == Val.top) = false :=
                beq_top_false_iff.mpr hvt
              have hA1 : vlt maxA (nextA c alphaCur beta).1 = true :=
                vlt_iff.mpr (lt_of_lt_of_le hAb hbv)
              have hR1 : vlt maxR (nextR c).1 = true := by
                refine vlt_iff.mpr (lt_of_lt_of_le ?_ hcase2)
                rcases hinv with ⟨h1, h2, h3, h4⟩ | ⟨h1, h2⟩
                · exact lt_of_le_of_lt h1 hab
                · exact h2.ge.trans_lt hAb
              simp only [hmbeqt, hvbeqt, Bool.not_false, Bool.and_true, hA1, hR1,
                if_true]
              rw [if_pos (vle_iff.mpr hbv)]
              have hMne := hm0_refPacLoop_ne_top nextR rest (nextR c).1 (some a) hmt
              have hMge := hm0_refPacLoop_mono nextR rest (nextR c).1 (some a)
              refine ⟨hMne, fun h => absurd h hMne, ?_, ?_, ?_, ?_⟩
              · intro h
                exact absurd (le_bot_iff.mp (h ▸ hMge)) hmb
              · intro _ hlt
                exact absurd hlt (not_lt.mpr (hcase2.trans hMge))
              · intro h
                exact absurd ((hcase2.trans hMge).trans h) hab.not_le
              · intro _
                exact ⟨hbv, hvm.trans hMge⟩

theorem hm0_ghostLoop_KM
    (nextA : GameState → Val → Val → Val × Option String)
    (nextR : GameState → Val × Option String)
    (alpha beta : Val) (hab : toW alpha < toW beta) :
    ∀ (l : List (GameState × String)),
      (∀ c a, (c, a) ∈ l → ∀ (al be : Val), toW al < toW be →
        KM (toW al) (toW be) (toW (nextR c).1) (toW (nextA c al be).1)) →
      ∀ (minR minA : Val) (bestR bestA : Option String) (betaCur : Val),
        toW betaCur = min (toW beta) (toW minA) →
        toW alpha < toW minA →
        toW minR ≠ ⊥ →
        toW minA ≠ ⊥ →
        ((toW beta ≤ toW minR ∧ toW minA ≤ toW minR ∧ toW beta ≤ toW minA ∧
            (toW minR = ⊤ → toW minA = ⊤)) ∨
          (toW minR < toW beta ∧ toW minA = toW minR)) →
        toW (HMinimax0.refGhostLoop nextR l minR bestR).1 ≠ ⊥ ∧
        KM (toW alpha) (toW beta)
          (toW (HMinimax0.refGhostLoop nextR l minR bestR).1)
          (toW (HMinimax0.ghostLoop nextA l alpha betaCur minA bestA).1) := by
  intro l
  induction l with
  | nil =>
      intro _ minR minA bestR bestA betaCur hbc hαlt hRb hAb hinv
      simp only [HMinimax0.refGhostLoop, HMinimax0.ghostLoop]
      refine ⟨hRb, ?_, fun h => absurd h hRb, ?_, ?_, ?_⟩
      · rcases hinv with ⟨h1, h2, h3, h4⟩ | ⟨h1, h2⟩
        · exact h4
        · intro h; rw [h] at h1; exact absurd h1 (not_top_lt)
      · rcases hinv with ⟨h1, h2, h3, h4⟩ | ⟨h1, h2⟩
        · intro _ hlt; exact absurd hlt (not_lt.mpr h1)
        · intro _ _; exact h2
      · rcases hinv with ⟨h1, h2, h3, h4⟩ | ⟨h1, h2⟩
        · intro h; exact absurd ((h1.trans h).trans_lt hab) (lt_irrefl _)
        · intro h
          have hαR : toW alpha < toW minR := by rw [← h2]; exact hαlt
          exact absurd (lt_of_lt_of_le hαR h) (lt_irrefl _)
      · rcases hinv with ⟨h1, h2, h3, h4⟩ | ⟨h1, h2⟩
        · intro _; exact ⟨h3, h2⟩
        · intro h; exact absurd h h1.not_le
  | cons hd rest ih =>
      intro hnext minR minA bestR bestA betaCur hbc hαlt hRb hAb hinv
      obtain ⟨c, a⟩ := hd
      have hmemrest : ∀ c' a', (c', a') ∈ rest → ∀ (al be : Val),
          toW al < toW be →
          KM (toW al) (toW be) (toW (nextR c').1) (toW (nextA c' al be).1) :=
        fun c' a' hm => hnext c' a' (List.mem_cons_of_mem _ hm)
      have hβge : toW betaCur ≤ toW beta := by rw [hbc]; exact min_le_left _ _
      have hAge : toW betaCur ≤ toW minA := by rw [hbc]; exact min_le_right _ _
      have habc : toW alpha < toW betaCur := by rw [hbc]; exact lt_min hab hαlt
      obtain ⟨k1, k2, k3, k4, k5⟩ := hnext c a (List.mem_cons_self _ _) alpha betaCur habc
      simp only [HMinimax0.refGhostLoop, HMinimax0.ghostLoop]
      by_cases hmb : toW (nextR c).1 = ⊥
      · rw [toW_eq_bot_iff.mp hmb, toW_eq_bot_iff.mp (k2 hmb)]
        simp only [beq_self_eq_true, Bool.not_true, Bool.and_false,
          Bool.false_eq_true, if_false]
        rw [if_neg (by simp [vle_false_iff.mpr hαlt])]
        have hbc' : toW (vmin betaCur minA) = min (toW beta) (toW minA) := by
          rw [toW_vmin, hbc, min_assoc, min_self]
        exact ih hmemrest minR minA bestR bestA _ hbc' hαlt hRb hAb hinv
      · by_cases hmt : toW (nextR c).1 = ⊤
        · rw [toW_eq_top_iff.mp hmt, toW_eq_top_iff.mp (k1 hmt)]
          simp only [vlt_top_left, Bool.false_and, Bool.false_eq_true, if_false]
          rw [if_neg (by simp [vle_false_iff.mpr hαlt])]
          have hbc' : toW (vmin betaCur minA) = min (toW beta) (toW minA) := by
            rw [toW_vmin, hbc, min_assoc, min_self]
          exact ih hmemrest minR minA bestR bestA _ hbc' hαlt hRb hAb hinv
        · have hmbeqb : ((nextR c).1 == Val.bot) = false := beq_bot_false_iff.mpr hmb
          rcases le_or_lt (toW betaCur) (toW (nextR c).1) with hcase | hcase
          · obtain ⟨hbv, hvm⟩ := k5 hcase
            have hvb : toW (nextA c alpha betaCur).1 ≠ ⊥ := by
              intro h
              rw [h] at hbv
              rw [le_bot_iff.mp hbv] at habc
              exact not_lt_bot habc
            have hvbeqb : ((nextA c alpha betaCur).1 == Val.bot) = false :=
              beq_bot_false_iff.mpr hvb
            simp only [hmbeqb, hvbeqb, Bool.not_false, Bool.and_true]
            rcases hinv with ⟨h1, h2, h3, h4⟩ | ⟨h1, h2⟩
            · have hbcβ : toW betaCur = toW beta := by rw [hbc, min_eq_left h3]
              rw [show (if vlt (nextR c).1 minR = true then (nextR c).1 else minR) =
                  vmin minR (nextR c).1 from rfl]
              rw [show (if vlt (nextA c alpha betaCur).1 minA = true
                    then (nextA c alpha betaCur).1 else minA) =
                  vmin minA (nextA c alpha betaCur).1 from rfl]
              have hβv : toW beta ≤ toW (nextA c alpha betaCur).1 := by
                rw [← hbcβ]; exact hbv
              have hEmin : toW beta ≤ toW (vmin minA (nextA c alpha betaCur).1) := by
                rw [toW_vmin]
                exact le_min h3 hβv
              have hEearly :
                  vle (vmin minA (nextA c alpha betaCur).1) alpha = false :=
                vle_false_iff.mpr (hab.trans_le hEmin)
              simp only [hEearly, Bool.false_eq_true, if_false]
              have hbc' : toW (vmin betaCur (vmin minA (nextA c alpha betaCur).1)) =
                  min (toW beta) (toW (vmin minA (nextA c alpha betaCur).1)) := by
                rw [toW_vmin, toW_vmin, hbc, min_assoc,
                  ← min_assoc (toW minA) (toW minA), min_self]
              have hRb' : toW (vmin minR (nextR c).1) ≠ ⊥ := by
                rw [toW_vmin]
                intro h
                rcases min_choice (toW minR) (toW (nextR c).1) with hc | hc <;>
                  rw [hc] at h
                exacts [hRb h, hmb h]
              have hAb' : toW (vmin minA (nextA c alpha betaCur).1) ≠ ⊥ := by
                rw [toW_vmin]
                intro h
                rcases min_choice (toW minA) (toW (nextA c alpha betaCur).1) with hc | hc <;>
                  rw [hc] at h
                exacts [hAb h, hvb h]
              refine ih hmemrest _ _ _ _ _ hbc'
                (hab.trans_le hEmin) hRb' hAb' (Or.inl ⟨?_, ?_, ?_, ?_⟩)
              · rw [toW_vmin]
                refine le_min h1 ?_
                rw [← hbcβ]; exact hcase
              · rw [toW_vmin, toW_vmin]
                exact min_le_min h2 hvm
              · exact hEmin
              · intro h
                rw [toW_vmin] at h
                have hr := min_le_right (toW minR) (toW (nextR c).1)
                rw [h] at hr
                exact absurd (top_le_iff.mp hr) hmt
            · have hbcA : toW betaCur = toW minA := by
                rw [hbc, min_eq_right (le_of_lt (by rw [h2]; exact h1))]
              have huR : vlt (nextR c).1 minR = false := by
                refine vlt_false_iff.mpr ?_
                rw [← h2, ← hbcA]; exact hcase
              have huA : vlt (nextA c alpha betaCur).1 minA = false := by
                refine vlt_false_iff.mpr ?_
                rw [← hbcA]; exact hbv
              simp only [huR, huA, Bool.false_eq_true, if_false]
              rw [if_neg (by simp [vle_false_iff.mpr hαlt])]
              have hbc' : toW (vmin betaCur minA) = min (toW beta) (toW minA) := by
                rw [toW_vmin, hbc, min_assoc, min_self]
              exact ih hmemrest minR minA bestR bestA _ hbc' hαlt hRb hAb
                (Or.inr ⟨h1, h2⟩)
          · have hRge : toW betaCur ≤ toW minR := by
              rcases hinv with ⟨h1, h2, h3, h4⟩ | ⟨h1, h2⟩
              · exact hβge.trans h1
              · exact hAge.trans h2.le
            rcases lt_or_le (toW alpha) (toW (nextR c).1) with hcase2 | hcase2
            · have hveq : toW (nextA c alpha betaCur).1 = toW (nextR c).1 :=
                k3 hcase2 hcase
              have hA1 : vlt (nextA c alpha betaCur).1 minA = true :=
                vlt_iff.mpr (by rw [hveq]; exact lt_of_lt_of_le hcase hAge)
              have hR1 : vlt (nextR c).1 minR = true :=
                vlt_iff.mpr (lt_of_lt_of_le hcase hRge)
              have hvbeqb : ((nextA c alpha betaCur).1 == Val.bot) = false :=
                beq_bot_false_iff.mpr (by rw [hveq]; exact hmb)
              simp only [hmbeqb, hvbeqb, Bool.not_false, Bool.and_true, hA1, hR1,
                if_true]
              rw [if_neg (by
                simp [vle_false_iff.mpr (show toW alpha < toW (nextA c alpha betaCur).1
                  from hveq ▸ hcase2)])]
              rw [toW_inj.mp hveq]
              have hbc' : toW (vmin betaCur (nextR c).1) =
                  min (toW beta) (toW (nextR c).1) := by
                rw [toW_vmin, hbc, min_assoc,
                  min_eq_right (le_of_lt (lt_of_lt_of_le hcase hAge))]
              exact ih hmemrest _ _ _ _ _ hbc' hcase2 hmb hmb
                (Or.inr ⟨lt_of_lt_of_le hcase hβge, rfl⟩)
            · obtain ⟨hmv, hva⟩ := k4 hcase2
              have hvb : toW (nextA c alpha betaCur).1 ≠ ⊥ := by
                intro h
                rw [h] at hmv
                exact hmb (le_bot_iff.mp hmv)
              have hvbeqb : ((nextA c alpha betaCur).1 == Val.bot) = false :=
                beq_bot_false_iff.mpr hvb
              have hA1 : vlt (nextA c alpha betaCur).1 minA = true :=
                vlt_iff.mpr (lt_of_le_of_lt hva hαlt)
              have hR1 : vlt (nextR c).1 minR = true := by
                refine vlt_iff.mpr ?_
                rcases hinv with ⟨h1, h2, h3, h4⟩ | ⟨h1, h2⟩
                · exact lt_of_le_of_lt hcase2 (hab.trans_le h1)
                · refine lt_of_le_of_lt hcase2 ?_
                  rw [← h2]; exact hαlt
              simp only [hmbeqb, hvbeqb, Bool.not_false, Bool.and_true, hA1, hR1,
                if_true]
              rw [if_pos (vle_iff.mpr hva)]
              have hMne := hm0_refGhostLoop_ne_bot nextR rest (nextR c).1 bestR hmb
              have hMle := hm0_refGhostLoop_mono nextR rest (nextR c).1 bestR
              refine ⟨hMne, ?_, fun h => absurd h hMne, ?_, ?_, ?_⟩
              · intro h
                rw [h] at hMle
                exact absurd (top_le_iff.mp hMle) hmt
              · intro hlt _
                exact absurd (lt_of_lt_of_le hlt (hMle.trans hcase2)) (lt_irrefl _)
              · intro _
                exact ⟨hMle.trans hmv, hva⟩
              · intro h
                exact absurd ((h.trans (hMle.trans hcase2)).trans_lt hab) (lt_irrefl _)

theorem hm0_KM (pk : List HMinimax0.RevisitKey) (cs : ℚ) :
    ∀ (f : Nat) (s : GameState) (alpha beta : Val) (p : Bool) (d : Nat),
      s.gsize ≤ f → toW alpha < toW beta →
      KM (toW alpha) (toW beta)
        (toW (HMinimax0.hminimaxRefAuxF pk cs f s p d).1)
        (toW (HMinimax0.hminimaxAuxF pk cs f s alpha beta p d).1) := by
  intro f
  induction f with
  | zero =>
      intro s alpha beta p d hs hab
      have := gameState_gsize_pos s
      omega
  | succ f ih =>
      intro s alpha beta p d hs hab
      simp only [HMinimax0.hminimaxRefAuxF, HMinimax0.hminimaxAuxF]
      by_cases hc : HMinimax0.cutoff s d p = true
      · rw [if_pos hc, if_pos hc]
        exact KM_refl _ _ _
      · rw [if_neg hc, if_neg hc]
        cases p with
        | true =>
            simp only [if_true]
            refine (hm0_pacLoop_KM
              (fun c al be => HMinimax0.hminimaxAuxF pk cs f c al be false (d + 1))
              (fun c => HMinimax0.hminimaxRefAuxF pk cs f c false (d + 1))
              alpha beta hab s.pacSucc
              (fun c a hm al be h' => ih c al be false (d + 1)
                (by have := gsize_lt_of_mem_pacSucc hm; omega) h')
              Val.bot Val.bot none none alpha
              (by rw [show toW Val.bot = (⊥ : W) from rfl, max_eq_left bot_le])
              (bot_le.trans_lt hab) bot_ne_top bot_ne_top
              (Or.inl ⟨bot_le, le_refl _, bot_le, fun _ => rfl⟩)).2
        | false =>
            simp only [Bool.false_eq_true, if_false]
            refine (hm0_ghostLoop_KM
              (fun c al be => HMinimax0.hminimaxAuxF pk cs f c al be true (d + 1))
              (fun c => HMinimax0.hminimaxRefAuxF pk cs f c true (d + 1))
              alpha beta hab s.ghostSucc
              (fun c a hm al be h' => ih c al be true (d + 1)
                (by have := gsize_lt_of_mem_ghostSucc hm; omega) h')
              Val.top Val.top none none beta
              (by rw [show toW Val.top = (⊤ : W) from rfl, min_eq_left le_top])
              (hab.trans_le le_top) top_ne_bot top_ne_bot
              (Or.inl ⟨le_top, le_refl _, le_top, fun _ => rfl⟩)).2

theorem hm0_pacLoop_rootEq
    (nextA : GameState → Val → Val → Val × Option String)
    (nextR : GameState → Val × Option String) :
    ∀ (l : List (GameState × String)),
      (∀ c a, (c, a) ∈ l → ∀ (al be : Val), toW al < toW be →
        KM (toW al) (toW be) (toW (nextR c).1) (toW (nextA c al be).1)) →
      ∀ (maxv : Val) (best : Option String) (alphaCur : Val),
        toW alphaCur = toW maxv → toW maxv ≠ ⊤ →
        HMinimax0.pacLoop nextA l alphaCur Val.top maxv best =
          HMinimax0.refPacLoop nextR l maxv best := by
  intro l
  induction l with
  | nil => intro _ maxv best alphaCur _ _; rfl
  | cons hd rest ih =>
      intro hnext maxv best alphaCur hacm hmt
      obtain ⟨c, a⟩ := hd
      have hmemrest : ∀ c' a', (c', a') ∈ rest → ∀ (al be : Val),
          toW al < toW be →
          KM (toW al) (toW be) (toW (nextR c').1) (toW (nextA c' al be).1) :=
        fun c' a' hm => hnext c' a' (List.mem_cons_of_mem _ hm)
      have hmvtop : toW maxv < toW Val.top := by
        rw [show toW Val.top = (⊤ : W) from rfl]
        exact lt_top_iff_ne_top.mpr hmt
      have hactop : toW alphaCur < toW Val.top := by rw [hacm]; exact hmvtop
      obtain ⟨k1, k2, k3, k4, k5⟩ :=
        hnext c a (List.mem_cons_self _ _) alphaCur Val.top hactop
      simp only [HMinimax0.pacLoop, HMinimax0.refPacLoop]
      by_cases hvt : toW (nextR c).1 = ⊤
      · rw [toW_eq_top_iff.mp hvt, toW_eq_top_iff.mp (k1 hvt)]
        simp only [beq_self_eq_true, Bool.not_true, Bool.and_false,
          Bool.false_eq_true, if_false]
        rw [if_neg (by simp [vle_false_iff.mpr hmvtop])]
        exact ih hmemrest maxv best _ (by rw [toW_vmax, hacm, max_self]) hmt
      · rcases le_or_lt (toW (nextR c).1) (toW alphaCur) with hcase | hcase
        · obtain ⟨hmv, hva⟩ := k4 hcase
          have huA : vlt maxv (nextA c alphaCur Val.top).1 = false :=
            vlt_false_iff.mpr (hva.trans hacm.le)
          have huR : vlt maxv (nextR c).1 = false :=
            vlt_false_iff.mpr (hcase.trans hacm.le)
          simp only [huA, huR, Bool.false_and, Bool.false_eq_true, if_false]
          rw [if_neg (by simp [vle_false_iff.mpr hmvtop])]
          exact ih hmemrest maxv best _ (by rw [toW_vmax, hacm, max_self]) hmt
        · have hmlt : toW (nextR c).1 < toW Val.top := by
            rw [show toW Val.top = (⊤ : W) from rfl]
            exact lt_top_iff_ne_top.mpr hvt
          have hveq := k3 hcase hmlt
          have hA1 : vlt maxv (nextA c alphaCur Val.top).1 = true :=
            vlt_iff.mpr (by rw [hveq, ← hacm]; exact hcase)
          have hR1 : vlt maxv (nextR c).1 = true :=
            vlt_iff.mpr (by rw [← hacm]; exact hcase)
          have hbeqA : ((nextA c alphaCur Val.top).1 == Val.top) = false :=
            beq_top_false_iff.mpr (by rw [hveq]; exact hvt)
          have hbeqR : ((nextR c).1 == Val.top) = false := beq_top_false_iff.mpr hvt
          simp only [hA1, hR1, hbeqA, hbeqR, Bool.not_false, Bool.and_true, if_true]
          rw [toW_inj.mp hveq]
          rw [if_neg (by simp [vle_false_iff.mpr hmlt])]
          exact ih hmemrest (nextR c).1 (some a) _
            (by rw [toW_vmax]; exact max_eq_right (le_of_lt hcase)) hvt

/-- Claim C1 (amended): in the heuristic engine without a visited table
(`hminimax0.py`), for every snapshot and agent state, the alpha-beta
search with role Maximizer and the full window (alpha = -inf,
beta = +inf) returns exactly the same value-move pair as the
exhaustive, non-pruned minimax over the same bounded tree with the same
cutoff policy, evaluation and sentinel guards: there the alpha-beta
bounds and early returns never change the result.  (In the two
visited-table engines the original claim fails; see the
counterexample.) -/
theorem C1_full_window_equals_exhaustive
    (pk : List HMinimax0.RevisitKey) (cs : ℚ) (s : GameState) :
    HMinimax0.hminimax_aux pk cs s Val.bot Val.top true 0 =
      HMinimax0.hminimaxRefAux pk cs s true 0 := by
  unfold HMinimax0.hminimax_aux HMinimax0.hminimaxRefAux
  obtain ⟨f, hf⟩ := exists_fuel_succ s
  rw [hf]
  simp only [HMinimax0.hminimaxAuxF, HMinimax0.hminimaxRefAuxF]
  by_cases hc : HMinimax0.cutoff s 0 true = true
  · rw [if_pos hc, if_pos hc]
  · rw [if_neg hc, if_neg hc]
    simp only [if_true]
    exact hm0_pacLoop_rootEq _ _ s.pacSucc
      (fun c a hm al be h' => hm0_KM pk cs f c al be false (0 + 1)
        (by have := gsize_lt_of_mem_pacSucc hm; omega) h')
      Val.bot none Val.bot rfl bot_ne_top
